import Mathlib

/-!
Consistent hash ring (`ring.go`).

A shallow embedding of the Go package `consistentHashRing`.

* `uint32` values are natural numbers; the arithmetic that can wrap is reduced
  modulo `2^32` explicitly.
* `int` is the 64-bit signed integer of the platforms on which the package
  compiles (the constant `MAXCAPACITY = 2^32` does not fit a 32-bit `int`);
  it is an `Int`, with the two's-complement wrap written `wrapInt`.
* A Go slice is a `List`; a map is a function to `Option`. Node ids, positions and
  hash values are not bounded by `2^32` in the statements, which therefore cover
  every `uint32` input.
* A call either returns (`Except.ok`) or stops: a run-time panic, or a
  goroutine that blocks for ever on the mutex (`Stop.blocked`).
-/

namespace ConsistentHashRing

/-! ## Machine integers -/

/-- The constant `MAXCAPACITY = 4294967296` of `ring.go`. -/
def MAXCAPACITY : Int := 4294967296

/-- The conversion `uint32(x)` of an `int`: the low 32 bits. -/
def toUint32 (x : Int) : Nat := (x % 4294967296).toNat

/-- Two's-complement wrap of a mathematical integer into the 64-bit `int`. -/
def wrapInt (x : Int) : Int :=
  (x + 9223372036854775808) % 18446744073709551616 - 9223372036854775808

/-- How a call ends when it does not return. -/
inductive Stop where
  | divideByZero
  | indexOutOfRange
  | sliceBoundsOutOfRange
  | blocked
  deriving DecidableEq, Repr

/-- The error values the package creates with `errors.New`. -/
inductive Err where
  | keyNotFound
  | noSuchHashKey
  | noNodesInRing
  | noSuchNodeInRing
  deriving DecidableEq, Repr

/-- Integer division `a / b` on `int`: truncated, panics on a zero divisor. -/
def divInt (a b : Int) : Except Stop Int :=
  if b = 0 then .error .divideByZero else .ok (wrapInt (Int.tdiv a b))

/-! ## The reader/writer mutex -/

/-- State of a `sync.RWMutex`: whether a writer holds it, and how many readers do. -/
structure RWMutex where
  writer : Bool
  readers : Nat
  deriving DecidableEq, Repr

/-- The method `Lock`: acquires the mutex for writing; blocks while anyone holds it. -/
def RWMutex.Lock (m : RWMutex) : Except Stop RWMutex :=
  if m.writer = true ∨ m.readers ≠ 0 then .error .blocked
  else .ok { m with writer := true }

/-- The method `Unlock`: releases the write lock. -/
def RWMutex.Unlock (m : RWMutex) : RWMutex := { m with writer := false }

/-- The method `RLock`: acquires the mutex for reading; blocks while a writer holds it. -/
def RWMutex.RLock (m : RWMutex) : Except Stop RWMutex :=
  if m.writer = true then .error .blocked
  else .ok { m with readers := m.readers + 1 }

/-- The method `RUnlock`: releases one read lock. -/
def RWMutex.RUnlock (m : RWMutex) : RWMutex := { m with readers := m.readers - 1 }

/-- The mutex nobody holds. -/
def RWMutex.free : RWMutex := { writer := false, readers := 0 }

/-! ## Slices and `sort.Search` -/

/-- The loop of `sort.Search`: `for i < j { h := (i+j)/2; if !f(h) { i = h+1 } else { j = h } }`.
The first argument bounds the number of iterations; `j - i` of them are always enough. -/
def searchLoop (f : Nat → Bool) : Nat → Nat → Nat → Nat
  | 0, i, _ => i
  | fuel + 1, i, j =>
    if i < j then
      let h := (i + j) / 2
      if !f h then searchLoop f fuel (h + 1) j else searchLoop f fuel i h
    else i

/-- The function `sort.Search(n, f)` of the Go standard library. -/
def sortSearch (n : Nat) (f : Nat → Bool) : Nat := searchLoop f n 0 n

/-- The index expression `s[i]`: panics when `i` is out of range. -/
def index (s : List Nat) (i : Nat) : Except Stop Nat :=
  match s[i]? with
  | some v => .ok v
  | none => .error .indexOutOfRange

/-- The expression `append(s[:i], s[i+1:]...)`: panics unless `i + 1 <= len(s)`. -/
def sliceRemove (s : List Nat) (i : Nat) : Except Stop (List Nat) :=
  if i + 1 ≤ s.length then .ok (s.take i ++ s.drop (i + 1))
  else .error .sliceBoundsOutOfRange

/-- The function `SortedInsert(s, f)` (ring.go, lines 79-91). -/
def SortedInsert (s : List Nat) (f : Nat) : List Nat :=
  let l := s.length
  if l = 0 then s ++ [f]
  else
    let j := sortSearch l (fun i => decide (s.getD i 0 ≥ f))
    if j = l then s ++ [f]
    else s.take j ++ ([f] ++ s.drop j)

/-! ## The ring -/

/-- The struct `HashRing`. -/
structure HashRing where
  ringData : Nat → Option (List Nat)
  rwMu : RWMutex
  keySlice : List Nat
  hashFun : List Nat → Nat
  virtualFactor : Int
  physicalNodeSlice : List Nat
  virtualNodeSlice : List Nat

/-- The expression `pNode%uint32(cutRange) + uint32(i*MAXCAPACITY/virtualFactor)`,
which occurs in `NewConsistentHashRing`, `addPNode` and `removePNode`. -/
def virtualNode (pNode : Nat) (cutRange vf : Int) (i : Nat) : Except Stop Nat :=
  if toUint32 cutRange = 0 then .error .divideByZero
  else
    match divInt (wrapInt ((i : Int) * MAXCAPACITY)) vf with
    | .error e => .error e
    | .ok q => .ok ((pNode % toUint32 cutRange + toUint32 q) % 4294967296)

/-- Inner loop of `NewConsistentHashRing` over the replica indices `is`:
appends each virtual node to the slice. -/
def appendVirtualNodes (pNode : Nat) (cutRange vf : Int) :
    List Nat → List Nat → Except Stop (List Nat)
  | [], vs => .ok vs
  | i :: is, vs =>
    match virtualNode pNode cutRange vf i with
    | .error e => .error e
    | .ok v => appendVirtualNodes pNode cutRange vf is (vs ++ [v])

/-- Outer loop of `NewConsistentHashRing` over the nodes. -/
def constructVirtualNodes (vf : Int) : List Nat → List Nat → Except Stop (List Nat)
  | [], vs => .ok vs
  | pNode :: rest, vs =>
    match divInt MAXCAPACITY vf with
    | .error e => .error e
    | .ok cutRange =>
      match appendVirtualNodes pNode cutRange vf (List.range vf.toNat) vs with
      | .error e => .error e
      | .ok vs1 => constructVirtualNodes vf rest vs1

/-- The constructor `NewConsistentHashRing(fn, rep, nodes)` (ring.go, lines 30-57);
`sort.Slice` with `<` yields the ascending arrangement of the slice. -/
def NewConsistentHashRing (fn : List Nat → Nat) (rep : Int) (nodes : List Nat) :
    Except Stop HashRing :=
  match constructVirtualNodes rep nodes [] with
  | .error e => .error e
  | .ok vs =>
    .ok { ringData := fun _ => none
          rwMu := RWMutex.free
          keySlice := []
          hashFun := fn
          virtualFactor := rep
          physicalNodeSlice := nodes
          virtualNodeSlice := List.insertionSort (fun a b => a ≤ b) vs }

/-- The method `getObjectAssignNode(objectHash)` (ring.go, lines 64-74). -/
def getObjectAssignNode (ring : HashRing) (objectHash : Nat) : Except Stop (HashRing × Nat) :=
  match ring.rwMu.RLock with
  | .error e => .error e
  | .ok mu =>
    let idx := sortSearch ring.virtualNodeSlice.length
      (fun i => decide (ring.virtualNodeSlice.getD i 0 ≥ objectHash))
    match (if idx = ring.virtualNodeSlice.length then index ring.virtualNodeSlice 0
           else index ring.virtualNodeSlice idx) with
    | .error e => .error e
    | .ok node => .ok ({ ring with rwMu := mu.RUnlock }, node)

/-- The method `add(b)` (ring.go, lines 94-105). -/
def add (ring : HashRing) (b : List Nat) : Except Stop (HashRing × Nat) :=
  match ring.rwMu.Lock with
  | .error e => .error e
  | .ok mu =>
    let hashKey := ring.hashFun b
    .ok ({ ring with
            rwMu := mu.Unlock
            keySlice := SortedInsert ring.keySlice hashKey
            ringData := fun k => if k = hashKey then some b else ring.ringData k },
         hashKey)

/-- The method `get(key)` (ring.go, lines 108-118): the error, the index and the payload
it returns. -/
def get (ring : HashRing) (key : Nat) :
    Except Stop (HashRing × Option Err × Int × List Nat) :=
  match ring.rwMu.RLock with
  | .error e => .error e
  | .ok mu =>
    match ring.ringData key with
    | none => .ok ({ ring with rwMu := mu.RUnlock }, some .keyNotFound, -1, [])
    | some v =>
      .ok ({ ring with rwMu := mu.RUnlock }, none,
           (sortSearch ring.keySlice.length (fun i => decide (ring.keySlice.getD i 0 ≥ key)) : Nat),
           v)

/-- The method `delete(key)` (ring.go, lines 121-131): takes the write lock, then calls
`get` on the locked ring. -/
def delete (ring : HashRing) (key : Nat) : Except Stop (HashRing × Option Err) :=
  match ring.rwMu.Lock with
  | .error e => .error e
  | .ok mu =>
    match get { ring with rwMu := mu } key with
    | .error e => .error e
    | .ok (ring1, err, idx, _) =>
      if err ≠ none then
        .ok ({ ring1 with rwMu := ring1.rwMu.Unlock }, some .noSuchHashKey)
      else
        match sliceRemove ring1.keySlice idx.toNat with
        | .error e => .error e
        | .ok ks =>
          .ok ({ ring1 with
                  rwMu := ring1.rwMu.Unlock
                  keySlice := ks
                  ringData := fun k => if k = key then none else ring1.ringData k },
               none)

/-- Loop of `addPNode` over the replica indices: sorted insertion of each virtual node. -/
def insertVirtualNodes (pNode : Nat) (cutRange vf : Int) :
    List Nat → List Nat → Except Stop (List Nat)
  | [], vs => .ok vs
  | i :: is, vs =>
    match virtualNode pNode cutRange vf i with
    | .error e => .error e
    | .ok v => insertVirtualNodes pNode cutRange vf is (SortedInsert vs v)

/-- The method `addPNode(pNode)` (ring.go, lines 134-144). -/
def addPNode (ring : HashRing) (pNode : Nat) : Except Stop HashRing :=
  match ring.rwMu.Lock with
  | .error e => .error e
  | .ok mu =>
    match divInt MAXCAPACITY ring.virtualFactor with
    | .error e => .error e
    | .ok cutRange =>
      match insertVirtualNodes pNode cutRange ring.virtualFactor
          (List.range ring.virtualFactor.toNat) ring.virtualNodeSlice with
      | .error e => .error e
      | .ok vs =>
        .ok { ring with
                rwMu := mu.Unlock
                physicalNodeSlice := ring.physicalNodeSlice ++ [pNode]
                virtualNodeSlice := vs }

/-- The scan `for i, Pnode := range s { if Pnode == node ... }`: the first index
at which `node` occurs, counted from `i`. -/
def rangeFind (node : Nat) : List Nat → Nat → Option Nat
  | [], _ => none
  | p :: ps, i => if p = node then some i else rangeFind node ps (i + 1)

/-- Inner loop of `removePNode` over the replica indices `ks`: searches each
virtual node and removes the entry at the index found. -/
def removeVirtualNodes (pNode : Nat) (cutRange vf : Int) :
    List Nat → List Nat → Except Stop (List Nat)
  | [], vs => .ok vs
  | k :: ks, vs =>
    match virtualNode pNode cutRange vf k with
    | .error e => .error e
    | .ok v =>
      match sliceRemove vs (sortSearch vs.length (fun i => decide (vs.getD i 0 ≥ v))) with
      | .error e => .error e
      | .ok vs1 => removeVirtualNodes pNode cutRange vf ks vs1

/-- The method `removePNode(node)` (ring.go, lines 147-171): the new state and the error
returned (`none` for `nil`). -/
def removePNode (ring : HashRing) (node : Nat) : Except Stop (HashRing × Option Err) :=
  match ring.rwMu.Lock with
  | .error e => .error e
  | .ok mu =>
    match divInt MAXCAPACITY ring.virtualFactor with
    | .error e => .error e
    | .ok cutRange =>
      if ring.physicalNodeSlice.length = 0 then
        .ok ({ ring with rwMu := mu.Unlock }, some .noNodesInRing)
      else
        match rangeFind node ring.physicalNodeSlice 0 with
        | none => .ok ({ ring with rwMu := mu.Unlock }, some .noSuchNodeInRing)
        | some i =>
          match sliceRemove ring.physicalNodeSlice i with
          | .error e => .error e
          | .ok phys =>
            match removeVirtualNodes node cutRange ring.virtualFactor
                (List.range ring.virtualFactor.toNat) ring.virtualNodeSlice with
            | .error e => .error e
            | .ok vs =>
              .ok ({ ring with
                      rwMu := mu.Unlock
                      physicalNodeSlice := phys
                      virtualNodeSlice := vs }, none)

/-- The method `PhysicalNodes()`. -/
def PhysicalNodes (ring : HashRing) : Except Stop (HashRing × List Nat) :=
  match ring.rwMu.RLock with
  | .error e => .error e
  | .ok mu => .ok ({ ring with rwMu := mu.RUnlock }, ring.physicalNodeSlice)

/-- The method `VirtualNodes()`. -/
def VirtualNodes (ring : HashRing) : Except Stop (HashRing × List Nat) :=
  match ring.rwMu.RLock with
  | .error e => .error e
  | .ok mu => .ok ({ ring with rwMu := mu.RUnlock }, ring.virtualNodeSlice)

/-! ## Derived positions, successors and reachable states -/

/-- The value of `cutRange := MAXCAPACITY / virtualFactor` when the division does not panic. -/
def cutRangeOf (vf : Int) : Int := wrapInt (Int.tdiv MAXCAPACITY vf)

/-- Value of `pNode%uint32(cutRange) + uint32(i*MAXCAPACITY/virtualFactor)` when neither
division panics: the `i`-th position derived from the node `pNode`. -/
def position (vf : Int) (pNode i : Nat) : Nat :=
  (pNode % toUint32 (cutRangeOf vf) +
    toUint32 (wrapInt (Int.tdiv (wrapInt ((i : Int) * MAXCAPACITY)) vf))) % 4294967296

/-- The `virtualFactor` positions derived from the node `pNode`, in the order of the loops. -/
def positions (vf : Int) (pNode : Nat) : List Nat :=
  (List.range vf.toNat).map (position vf pNode)

/-- Ring states the package can reach: a ring returned by `NewConsistentHashRing` with a
positive replication factor, then any sequence of calls that return. A call that panics
or blocks ends the run and yields no state. -/
inductive Reachable : HashRing → Prop
  | construct (fn : List Nat → Nat) (rep : Int) (nodes : List Nat) (r : HashRing) :
      0 < rep → NewConsistentHashRing fn rep nodes = .ok r → Reachable r
  | addPNode (r : HashRing) (n : Nat) (r1 : HashRing) :
      Reachable r → addPNode r n = .ok r1 → Reachable r1
  | removePNode (r : HashRing) (n : Nat) (r1 : HashRing) (e : Option Err) :
      Reachable r → removePNode r n = .ok (r1, e) → Reachable r1
  | add (r : HashRing) (b : List Nat) (r1 : HashRing) (k : Nat) :
      Reachable r → add r b = .ok (r1, k) → Reachable r1
  | delete (r : HashRing) (key : Nat) (r1 : HashRing) (e : Option Err) :
      Reachable r → delete r key = .ok (r1, e) → Reachable r1
  | get (r : HashRing) (key : Nat) (r1 : HashRing) (res : Option Err × Int × List Nat) :
      Reachable r → get r key = .ok (r1, res) → Reachable r1
  | getObjectAssignNode (r : HashRing) (p : Nat) (r1 : HashRing) (v : Nat) :
      Reachable r → getObjectAssignNode r p = .ok (r1, v) → Reachable r1
  | PhysicalNodes (r : HashRing) (r1 : HashRing) (l : List Nat) :
      Reachable r → PhysicalNodes r = .ok (r1, l) → Reachable r1
  | VirtualNodes (r : HashRing) (r1 : HashRing) (l : List Nat) :
      Reachable r → VirtualNodes r = .ok (r1, l) → Reachable r1

/-- The facts that hold of every reachable ring: positive factor, free mutex, ascending
virtual nodes that are the derived positions of the physical nodes, and a non-zero
modulus as soon as a node is present. -/
structure Inv (r : HashRing) : Prop where
  factor : 0 < r.virtualFactor
  free : r.rwMu = RWMutex.free
  sorted : r.virtualNodeSlice.Sorted (fun a b => a ≤ b)
  perm : r.virtualNodeSlice.Perm (r.physicalNodeSlice.flatMap (positions r.virtualFactor))
  modulus : r.physicalNodeSlice ≠ [] → toUint32 (cutRangeOf r.virtualFactor) ≠ 0

/-- The value `v` is the clockwise successor of the position `p` among the entries `vs`:
an entry, the least one that is at least `p` when there is one, the least of all otherwise. -/
def IsSuccessor (vs : List Nat) (p v : Nat) : Prop :=
  v ∈ vs ∧ ((∃ w ∈ vs, p ≤ w) → p ≤ v ∧ ∀ w ∈ vs, p ≤ w → v ≤ w) ∧
    ((∀ w ∈ vs, w < p) → ∀ w ∈ vs, v ≤ w)

/-! ## Example rings -/

/-- A small ring: the one `NewConsistentHashRing` builds for the factor 2 and the nodes 5, 9. -/
def exampleRing : HashRing :=
  { ringData := fun _ => none
    rwMu := RWMutex.free
    keySlice := []
    hashFun := fun b => b.length
    virtualFactor := 2
    physicalNodeSlice := [5, 9]
    virtualNodeSlice := [5, 9, 2147483653, 2147483657] }
/-- A ring in which the key 1 is already taken by the payload `[7]`. -/
def occupiedRing : HashRing :=
  { ringData := fun k => if k = 1 then some [7] else none
    rwMu := RWMutex.free
    keySlice := [1]
    hashFun := fun b => b.length
    virtualFactor := 2
    physicalNodeSlice := [5, 9]
    virtualNodeSlice := [5, 9, 2147483653, 2147483657] }

/-- The ring `NewConsistentHashRing` builds for the factor 4 and no node. -/
def emptyRing : HashRing :=
  { ringData := fun _ => none
    rwMu := RWMutex.free
    keySlice := []
    hashFun := fun b => b.length
    virtualFactor := 4
    physicalNodeSlice := []
    virtualNodeSlice := [] }

/-- The ring `NewConsistentHashRing` builds for the factor 1 and no node. -/
def unitFactorRing : HashRing :=
  { ringData := fun _ => none
    rwMu := RWMutex.free
    keySlice := []
    hashFun := fun b => b.length
    virtualFactor := 1
    physicalNodeSlice := []
    virtualNodeSlice := [] }

/-- The ring after a second payload, `[9]`, was added with the key 1: the key is twice in
the key list and the map holds the later payload. -/
def duplicateKeyRing : HashRing :=
  { ringData := fun k => if k = 1 then some [9] else none
    rwMu := RWMutex.free
    keySlice := [1, 1]
    hashFun := fun b => b.length
    virtualFactor := 2
    physicalNodeSlice := [5, 9]
    virtualNodeSlice := [5, 9, 2147483653, 2147483657] }

/-- A run of `addPNode` calls, one for each id of the list in turn. -/
def addPNodes : HashRing → List Nat → Except Stop HashRing
  | r, [] => .ok r
  | r, a :: rest =>
    match addPNode r a with
    | .error e => .error e
    | .ok r1 => addPNodes r1 rest

/-! ## `sort.Search` and the sorted slices -/

/-- The loop of `sort.Search` never leaves the interval it starts from. -/
theorem searchLoop_bounds (f : Nat → Bool) :
    ∀ (fuel i j : Nat), i ≤ j → i ≤ searchLoop f fuel i j ∧ searchLoop f fuel i j ≤ j := by
  intro fuel
  induction fuel with
  | zero => intro i j hij; simp [searchLoop, hij]
  | succ fuel ih =>
    intro i j hij
    unfold searchLoop
    by_cases hlt : i < j
    · simp only [hlt, if_true]
      by_cases hf : f ((i + j) / 2) = true
      · have h := ih i ((i + j) / 2) (by omega)
        simp only [hf, Bool.not_true, Bool.false_eq_true, if_false]
        omega
      · have h := ih ((i + j) / 2 + 1) j (by omega)
        simp only [hf, Bool.not_eq_true] at hf ⊢
        simp only [hf, Bool.not_false, if_true]
        omega
    · simp [hlt, hij]

/-- With enough iterations, on a predicate that is false below `i`, true from `j` on, the
loop of `sort.Search` returns the boundary: false strictly below the result, true from it on. -/
theorem searchLoop_boundary (f : Nat → Bool) (n : Nat)
    (hmono : ∀ a b, a ≤ b → b < n → f a = true → f b = true) :
    ∀ (fuel i j : Nat), i ≤ j → j ≤ n → j - i ≤ fuel →
      (∀ k, k < i → f k = false) → (∀ k, j ≤ k → k < n → f k = true) →
      (∀ k, k < searchLoop f fuel i j → f k = false) ∧
      (∀ k, searchLoop f fuel i j ≤ k → k < n → f k = true) := by
  intro fuel
  induction fuel with
  | zero =>
    intro i j hij hjn hfuel hlo hhi
    have : i = j := by omega
    subst this
    simp only [searchLoop]
    exact ⟨hlo, hhi⟩
  | succ fuel ih =>
    intro i j hij hjn hfuel hlo hhi
    unfold searchLoop
    by_cases hlt : i < j
    · simp only [hlt, if_true]
      by_cases hf : f ((i + j) / 2) = true
      · simp only [hf, Bool.not_true, Bool.false_eq_true, if_false]
        refine ih i ((i + j) / 2) (by omega) (by omega) (by omega) hlo ?_
        intro k hk hkn
        exact hmono _ _ hk hkn hf
      · simp only [Bool.not_eq_true] at hf
        simp only [hf, Bool.not_false, if_true]
        refine ih ((i + j) / 2 + 1) j (by omega) hjn (by omega) ?_ hhi
        intro k hk
        by_contra hc
        simp only [Bool.not_eq_false] at hc
        have := hmono k ((i + j) / 2) (by omega) (by omega) hc
        simp [hf] at this
    · have : i = j := by omega
      subst this
      simp only [lt_irrefl, if_false]
      exact ⟨hlo, hhi⟩

/-- Specification of `sort.Search` on a monotone predicate: the result is at most `n`, the
predicate is false below it and true from it on. -/
theorem sortSearch_spec (n : Nat) (f : Nat → Bool)
    (hmono : ∀ a b, a ≤ b → b < n → f a = true → f b = true) :
    sortSearch n f ≤ n ∧ (∀ k, k < sortSearch n f → f k = false) ∧
      (∀ k, sortSearch n f ≤ k → k < n → f k = true) := by
  have hb := searchLoop_bounds f n 0 n (Nat.zero_le _)
  have hs := searchLoop_boundary f n hmono n 0 n (Nat.zero_le _) le_rfl (by omega)
    (fun k hk => absurd hk (Nat.not_lt_zero _)) (fun k hk hkn => absurd hkn (by omega))
  exact ⟨hb.2, hs.1, hs.2⟩

/-- The search predicate `s[i] >= v` on an ascending slice is monotone. -/
theorem ge_pred_mono (s : List Nat) (v : Nat) (hs : s.Sorted (fun a b => a ≤ b)) :
    ∀ a b, a ≤ b → b < s.length →
      decide (s.getD a 0 ≥ v) = true → decide (s.getD b 0 ≥ v) = true := by
  intro a b hab hb h
  simp only [decide_eq_true_eq] at h ⊢
  rw [List.getD_eq_getElem s 0 hb]
  rw [List.getD_eq_getElem s 0 (by omega)] at h
  rcases Nat.eq_or_lt_of_le hab with rfl | hlt
  · exact h
  · have := (List.pairwise_iff_getElem.mp hs) a b (by omega) hb hlt
    omega

/-- On an ascending slice `sort.Search` splits the slice: everything before the index is
smaller than `v`, everything from the index on is at least `v`. -/
theorem search_split (s : List Nat) (v : Nat) (hs : s.Sorted (fun a b => a ≤ b)) :
    sortSearch s.length (fun i => decide (s.getD i 0 ≥ v)) ≤ s.length ∧
    (∀ x ∈ s.take (sortSearch s.length (fun i => decide (s.getD i 0 ≥ v))), x < v) ∧
    (∀ x ∈ s.drop (sortSearch s.length (fun i => decide (s.getD i 0 ≥ v))), v ≤ x) := by
  obtain ⟨h1, h2, h3⟩ := sortSearch_spec s.length _ (ge_pred_mono s v hs)
  refine ⟨h1, ?_, ?_⟩
  · intro x hx
    obtain ⟨i, hi, rfl⟩ := List.mem_take_iff_getElem.mp hx
    have := h2 i (by omega)
    rw [List.getD_eq_getElem s 0 (by omega)] at this
    simpa using this
  · intro x hx
    obtain ⟨i, hi, rfl⟩ := List.mem_drop_iff_getElem.mp hx
    have := h3 (sortSearch s.length (fun i => decide (s.getD i 0 ≥ v)) + i) (by omega) (by omega)
    rw [List.getD_eq_getElem s 0 (by omega)] at this
    simpa using this


/-- The index returned by the search of `SortedInsert` is within the slice. -/
theorem search_le_length (s : List Nat) (v : Nat) :
    sortSearch s.length (fun i => decide (s.getD i 0 ≥ v)) ≤ s.length :=
  (searchLoop_bounds _ s.length 0 s.length (Nat.zero_le _)).2

/-- The function `SortedInsert` in one piece: the slice is cut at the index found and `f`
put in between. -/
theorem SortedInsert_eq (s : List Nat) (f : Nat) :
    SortedInsert s f =
      s.take (sortSearch s.length (fun i => decide (s.getD i 0 ≥ f))) ++
        f :: s.drop (sortSearch s.length (fun i => decide (s.getD i 0 ≥ f))) := by
  unfold SortedInsert
  simp only []
  split_ifs with hl hj
  · have : s = [] := List.length_eq_zero.mp hl
    subst this
    simp [sortSearch, searchLoop]
  · rw [hj, List.take_length, List.drop_length]
  · simp

/-- The function `SortedInsert` adds exactly the new value. -/
theorem SortedInsert_perm (s : List Nat) (f : Nat) : (SortedInsert s f).Perm (f :: s) := by
  rw [SortedInsert_eq]
  refine List.perm_middle.trans ?_
  rw [List.take_append_drop]

/-- The function `SortedInsert` keeps an ascending slice ascending. -/
theorem SortedInsert_sorted (s : List Nat) (f : Nat) (hs : s.Sorted (fun a b => a ≤ b)) :
    (SortedInsert s f).Sorted (fun a b => a ≤ b) := by
  rw [SortedInsert_eq]
  obtain ⟨_, h2, h3⟩ := search_split s f hs
  have hs2 : (s.take (sortSearch s.length (fun i => decide (s.getD i 0 ≥ f))) ++
      s.drop (sortSearch s.length (fun i => decide (s.getD i 0 ≥ f)))).Pairwise
      (fun a b => a ≤ b) := by
    rw [List.take_append_drop]; exact hs
  rw [List.pairwise_append] at hs2
  unfold List.Sorted
  rw [List.pairwise_append]
  refine ⟨hs2.1, ?_, ?_⟩
  · rw [List.pairwise_cons]
    exact ⟨h3, hs2.2.1⟩
  · intro a ha b hb
    rcases List.mem_cons.mp hb with rfl | hb
    · exact Nat.le_of_lt (h2 a ha)
    · exact hs2.2.2 a ha b hb

/-- On an ascending slice that holds `v`, the search finds an index in range whose entry
is `v`. -/
theorem search_found (s : List Nat) (v : Nat) (hs : s.Sorted (fun a b => a ≤ b)) (hv : v ∈ s) :
    ∃ h : sortSearch s.length (fun i => decide (s.getD i 0 ≥ v)) < s.length,
      s[sortSearch s.length (fun i => decide (s.getD i 0 ≥ v))] = v := by
  obtain ⟨h1, h2, h3⟩ := sortSearch_spec s.length _ (ge_pred_mono s v hs)
  obtain ⟨n, hn, hnv⟩ := List.mem_iff_getElem.mp hv
  have hle : sortSearch s.length (fun i => decide (s.getD i 0 ≥ v)) ≤ n := by
    by_contra hc
    have := h2 n (by omega)
    rw [List.getD_eq_getElem s 0 hn] at this
    simp [hnv] at this
  have hlt : sortSearch s.length (fun i => decide (s.getD i 0 ≥ v)) < s.length := by omega
  refine ⟨hlt, ?_⟩
  have hge := h3 _ le_rfl hlt
  rw [List.getD_eq_getElem s 0 hlt] at hge
  simp only [decide_eq_true_eq] at hge
  rcases Nat.eq_or_lt_of_le hle with heq | hlt2
  · simp only [heq]; exact hnv
  · have := (List.pairwise_iff_getElem.mp hs) _ n hlt hn hlt2
    omega

/-- Removing the entry at an index in range leaves a slice that, with the entry put back,
is a rearrangement of the old one. -/
theorem sliceRemove_perm (s : List Nat) (i : Nat) (h : i < s.length) :
    sliceRemove s i = .ok (s.eraseIdx i) ∧ s.Perm (s[i] :: s.eraseIdx i) := by
  constructor
  · simp [sliceRemove, Nat.succ_le_of_lt h, List.eraseIdx_eq_take_drop_succ]
  · rw [List.eraseIdx_eq_take_drop_succ]
    refine List.Perm.trans ?_ List.perm_middle
    rw [List.getElem_cons_drop, List.take_append_drop]

/-! ## The loops over the replica indices -/

theorem divInt_ok (a vf : Int) (h : vf ≠ 0) : divInt a vf = .ok (wrapInt (Int.tdiv a vf)) := by
  simp [divInt, h]

theorem virtualNode_zero (pNode : Nat) (c vf : Int) (i : Nat) (h : toUint32 c = 0) :
    virtualNode pNode c vf i = .error .divideByZero := by
  simp [virtualNode, h]

theorem virtualNode_eq (pNode : Nat) (vf : Int) (i : Nat) (hvf : vf ≠ 0)
    (hm : toUint32 (cutRangeOf vf) ≠ 0) :
    virtualNode pNode (cutRangeOf vf) vf i = .ok (position vf pNode i) := by
  simp [virtualNode, hm, divInt_ok _ _ hvf, position]

theorem appendVirtualNodes_ok (pNode : Nat) (vf : Int) (hvf : vf ≠ 0)
    (hm : toUint32 (cutRangeOf vf) ≠ 0) :
    ∀ (is vs : List Nat), appendVirtualNodes pNode (cutRangeOf vf) vf is vs =
      .ok (vs ++ is.map (position vf pNode)) := by
  intro is
  induction is with
  | nil => intro vs; simp [appendVirtualNodes]
  | cons i is ih =>
    intro vs
    simp [appendVirtualNodes, virtualNode_eq pNode vf i hvf hm, ih]

theorem constructVirtualNodes_ok (vf : Int) (hvf : vf ≠ 0) (hm : toUint32 (cutRangeOf vf) ≠ 0) :
    ∀ (nodes vs : List Nat), constructVirtualNodes vf nodes vs =
      .ok (vs ++ nodes.flatMap (positions vf)) := by
  intro nodes
  induction nodes with
  | nil => intro vs; simp [constructVirtualNodes]
  | cons p rest ih =>
    intro vs
    simp only [constructVirtualNodes, divInt_ok _ _ hvf]
    have := appendVirtualNodes_ok p vf hvf hm (List.range vf.toNat) vs
    simp only [cutRangeOf] at this
    simp only [this, ih, List.flatMap_cons, positions, List.append_assoc]

/-- With a positive factor and a zero modulus the first replica already panics. -/
theorem constructVirtualNodes_zero (vf : Int) (hvf : 0 < vf) (hm : toUint32 (cutRangeOf vf) = 0)
    (p : Nat) (rest vs : List Nat) :
    constructVirtualNodes vf (p :: rest) vs = .error .divideByZero := by
  have hne : vf ≠ 0 := by omega
  obtain ⟨k, hk⟩ : ∃ k, vf.toNat = k + 1 := ⟨vf.toNat - 1, by omega⟩
  simp only [constructVirtualNodes, divInt_ok _ _ hne, hk, List.range_succ_eq_map,
    appendVirtualNodes]
  rw [virtualNode_zero _ _ _ _ (by simpa [cutRangeOf] using hm)]

theorem insertVirtualNodes_zero (vf : Int) (hvf : 0 < vf) (hm : toUint32 (cutRangeOf vf) = 0)
    (p : Nat) (vs : List Nat) :
    insertVirtualNodes p (cutRangeOf vf) vf (List.range vf.toNat) vs = .error .divideByZero := by
  obtain ⟨k, hk⟩ : ∃ k, vf.toNat = k + 1 := ⟨vf.toNat - 1, by omega⟩
  simp only [hk, List.range_succ_eq_map, insertVirtualNodes]
  rw [virtualNode_zero _ _ _ _ hm]

/-- The loop of `addPNode` returns an ascending slice that holds the old entries and the
positions inserted. -/
theorem insertVirtualNodes_ok (pNode : Nat) (vf : Int) (hvf : vf ≠ 0)
    (hm : toUint32 (cutRangeOf vf) ≠ 0) :
    ∀ (is vs : List Nat), vs.Sorted (fun a b => a ≤ b) →
      ∃ vs1, insertVirtualNodes pNode (cutRangeOf vf) vf is vs = .ok vs1 ∧
        vs1.Sorted (fun a b => a ≤ b) ∧ vs1.Perm (is.map (position vf pNode) ++ vs) := by
  intro is
  induction is with
  | nil => intro vs hs; exact ⟨vs, by simp [insertVirtualNodes], hs, by simp⟩
  | cons i is ih =>
    intro vs hs
    obtain ⟨vs1, h1, h2, h3⟩ := ih (SortedInsert vs (position vf pNode i))
      (SortedInsert_sorted vs _ hs)
    refine ⟨vs1, ?_, h2, ?_⟩
    · simp [insertVirtualNodes, virtualNode_eq pNode vf i hvf hm, h1]
    · refine h3.trans ?_
      refine (List.Perm.append_left _ (SortedInsert_perm vs _)).trans ?_
      simp only [List.map_cons, List.cons_append]
      exact List.perm_middle

/-- The loop of `removePNode`, on an ascending slice that holds the positions to remove,
returns the slice without them, still ascending. -/
theorem removeVirtualNodes_ok (pNode : Nat) (vf : Int) (hvf : vf ≠ 0)
    (hm : toUint32 (cutRangeOf vf) ≠ 0) :
    ∀ (ks vs rest : List Nat), vs.Sorted (fun a b => a ≤ b) →
      vs.Perm (ks.map (position vf pNode) ++ rest) →
      ∃ vs1, removeVirtualNodes pNode (cutRangeOf vf) vf ks vs = .ok vs1 ∧
        vs1.Sorted (fun a b => a ≤ b) ∧ vs1.Perm rest := by
  intro ks
  induction ks with
  | nil => intro vs rest hs hp; exact ⟨vs, by simp [removeVirtualNodes], hs, by simpa using hp⟩
  | cons k ks ih =>
    intro vs rest hs hp
    have hmem : position vf pNode k ∈ vs := by
      rw [hp.mem_iff]; simp
    obtain ⟨hlt, hget⟩ := search_found vs _ hs hmem
    obtain ⟨hrm, hperm⟩ := sliceRemove_perm vs _ hlt
    rw [hget] at hperm
    have hs1 : (vs.eraseIdx (sortSearch vs.length
        (fun i => decide (vs.getD i 0 ≥ position vf pNode k)))).Sorted (fun a b => a ≤ b) :=
      List.Pairwise.sublist (List.eraseIdx_sublist _ _) hs
    have hp1 : (vs.eraseIdx (sortSearch vs.length
        (fun i => decide (vs.getD i 0 ≥ position vf pNode k)))).Perm
        (ks.map (position vf pNode) ++ rest) := by
      have := hperm.symm.trans hp
      simp only [List.map_cons, List.cons_append] at this
      exact (List.perm_cons _).mp this
    obtain ⟨vs1, h1, h2, h3⟩ := ih _ rest hs1 hp1
    refine ⟨vs1, ?_, h2, h3⟩
    simp only [removeVirtualNodes, virtualNode_eq pNode vf k hvf hm, hrm, h1]

/-! ## The operations on a ring whose mutex is free -/

theorem lock_free : RWMutex.free.Lock = .ok { writer := true, readers := 0 } := by
  simp [RWMutex.Lock, RWMutex.free]

theorem rlock_free : RWMutex.free.RLock = .ok { writer := false, readers := 1 } := by
  simp [RWMutex.RLock, RWMutex.free]

/-- The scan of `removePNode` finds the first occurrence of the node, and cutting the
slice there erases that occurrence. -/
theorem rangeFind_spec (node : Nat) :
    ∀ (l : List Nat) (s : Nat),
      (node ∉ l ∧ rangeFind node l s = none) ∨
      (node ∈ l ∧ ∃ i, rangeFind node l s = some (s + i) ∧ i < l.length ∧
        l.take i ++ l.drop (i + 1) = l.erase node) := by
  intro l
  induction l with
  | nil => intro s; left; simp [rangeFind]
  | cons p ps ih =>
    intro s
    by_cases hp : p = node
    · right
      refine ⟨by simp [hp], 0, ?_, by simp, ?_⟩
      · simp [rangeFind, hp]
      · subst hp; simp
    · rcases ih (s + 1) with ⟨h1, h2⟩ | ⟨h1, i, h2, h3, h4⟩
      · left
        refine ⟨?_, by simp [rangeFind, hp, h2]⟩
        simp [h1, Ne.symm hp]
      · right
        refine ⟨by simp [h1], i + 1, ?_, by simpa using h3, ?_⟩
        · simp [rangeFind, hp, h2]; omega
        · have : (p == node) = false := by simpa using hp
          simp [List.erase_cons, this, h4]

/-- What `addPNode` does on a ring whose mutex is free and whose modulus is not zero. -/
theorem addPNode_ok (r : HashRing) (n : Nat) (hfree : r.rwMu = RWMutex.free)
    (hvf : r.virtualFactor ≠ 0) (hm : toUint32 (cutRangeOf r.virtualFactor) ≠ 0)
    (hs : r.virtualNodeSlice.Sorted (fun a b => a ≤ b)) :
    ∃ vs1, addPNode r n = .ok { r with
        rwMu := RWMutex.free
        physicalNodeSlice := r.physicalNodeSlice ++ [n]
        virtualNodeSlice := vs1 } ∧
      vs1.Sorted (fun a b => a ≤ b) ∧
      vs1.Perm (positions r.virtualFactor n ++ r.virtualNodeSlice) := by
  obtain ⟨vs1, h1, h2, h3⟩ := insertVirtualNodes_ok n r.virtualFactor hvf hm
    (List.range r.virtualFactor.toNat) r.virtualNodeSlice hs
  refine ⟨vs1, ?_, h2, h3⟩
  simp only [cutRangeOf] at h1
  simp only [addPNode, hfree, lock_free, divInt_ok _ _ hvf, h1]
  rfl

/-- What `removePNode` does for a node that is present, on a ring whose mutex is free,
whose virtual nodes are ascending and hold the positions of the node. -/
theorem removePNode_ok (r : HashRing) (n : Nat) (rest : List Nat) (hfree : r.rwMu = RWMutex.free)
    (hvf : r.virtualFactor ≠ 0) (hm : toUint32 (cutRangeOf r.virtualFactor) ≠ 0)
    (hs : r.virtualNodeSlice.Sorted (fun a b => a ≤ b))
    (hn : n ∈ r.physicalNodeSlice)
    (hp : r.virtualNodeSlice.Perm (positions r.virtualFactor n ++ rest)) :
    ∃ vs1, removePNode r n = .ok ({ r with
        rwMu := RWMutex.free
        physicalNodeSlice := r.physicalNodeSlice.erase n
        virtualNodeSlice := vs1 }, none) ∧
      vs1.Sorted (fun a b => a ≤ b) ∧ vs1.Perm rest := by
  obtain ⟨vs1, h1, h2, h3⟩ := removeVirtualNodes_ok n r.virtualFactor hvf hm
    (List.range r.virtualFactor.toNat) r.virtualNodeSlice rest hs hp
  refine ⟨vs1, ?_, h2, h3⟩
  rcases rangeFind_spec n r.physicalNodeSlice 0 with ⟨h, _⟩ | ⟨_, i, hi1, hi2, hi3⟩
  · exact absurd hn h
  · have hlen : r.physicalNodeSlice.length ≠ 0 := by omega
    simp only [cutRangeOf] at h1
    simp only [Nat.zero_add] at hi1
    simp only [removePNode, hfree, lock_free, divInt_ok _ _ hvf, hlen, if_false, hi1,
      sliceRemove, Nat.succ_le_of_lt hi2, if_true, hi3, h1]
    rfl

/-- What `removePNode` does for a node that is absent: an error, and the ring as it was. -/
theorem removePNode_absent (r : HashRing) (n : Nat) (hfree : r.rwMu = RWMutex.free)
    (hvf : r.virtualFactor ≠ 0) (hn : n ∉ r.physicalNodeSlice) :
    ∃ e, removePNode r n = .ok (r, some e) := by
  by_cases hlen : r.physicalNodeSlice.length = 0
  · refine ⟨.noNodesInRing, ?_⟩
    simp only [removePNode, hfree, lock_free, divInt_ok _ _ hvf, hlen, if_true]
    cases r
    simp_all [RWMutex.Unlock, RWMutex.free]
  · refine ⟨.noSuchNodeInRing, ?_⟩
    rcases rangeFind_spec n r.physicalNodeSlice 0 with ⟨_, h⟩ | ⟨h, _⟩
    · simp only [removePNode, hfree, lock_free, divInt_ok _ _ hvf, hlen, if_false, h]
      cases r
      simp_all [RWMutex.Unlock, RWMutex.free]
    · exact absurd h hn

/-- A call of `delete` never returns: `get` asks for the read lock of the mutex that
`delete` itself holds for writing. -/
theorem delete_blocked (r : HashRing) (key : Nat) : delete r key = .error .blocked := by
  unfold delete
  by_cases h : r.rwMu.writer = true ∨ r.rwMu.readers ≠ 0
  · simp [RWMutex.Lock, h]
  · simp [RWMutex.Lock, h, get, RWMutex.RLock]

/-- Taking and releasing the read lock of a free mutex leaves the ring as it was. -/
theorem runlock_free (r : HashRing) (hfree : r.rwMu = RWMutex.free) :
    { r with rwMu := RWMutex.RUnlock { writer := false, readers := 1 } } = r := by
  cases r
  simp_all [RWMutex.RUnlock, RWMutex.free]

/-- On a free mutex `get` returns the ring as it was, with the entry of the map. -/
theorem get_free (r : HashRing) (key : Nat) (hfree : r.rwMu = RWMutex.free) :
    get r key = .ok (r,
      match r.ringData key with
      | none => (some .keyNotFound, -1, [])
      | some v => (none,
          (sortSearch r.keySlice.length (fun i => decide (r.keySlice.getD i 0 ≥ key)) : Nat), v)) := by
  unfold get
  rw [hfree, rlock_free]
  simp only [← hfree]
  cases hk : r.ringData key <;> simp only [runlock_free r hfree]

/-- On a free mutex `add` returns the hash of the payload and records the payload. -/
theorem add_free (r : HashRing) (b : List Nat) (hfree : r.rwMu = RWMutex.free) :
    add r b = .ok ({ r with
        rwMu := RWMutex.free
        keySlice := SortedInsert r.keySlice (r.hashFun b)
        ringData := fun k => if k = r.hashFun b then some b else r.ringData k }, r.hashFun b) := by
  unfold add
  rw [hfree, lock_free]
  rfl

/-- On a free mutex the read-only accessors return the ring as it was. -/
theorem PhysicalNodes_free (r : HashRing) (hfree : r.rwMu = RWMutex.free) :
    PhysicalNodes r = .ok (r, r.physicalNodeSlice) := by
  unfold PhysicalNodes
  rw [hfree, rlock_free]
  simp only [← hfree, runlock_free r hfree]

theorem VirtualNodes_free (r : HashRing) (hfree : r.rwMu = RWMutex.free) :
    VirtualNodes r = .ok (r, r.virtualNodeSlice) := by
  unfold VirtualNodes
  rw [hfree, rlock_free]
  simp only [← hfree, runlock_free r hfree]

/-- On a free mutex a lookup that returns leaves the ring as it was. -/
theorem getObjectAssignNode_state (r : HashRing) (p : Nat) (hfree : r.rwMu = RWMutex.free)
    (r1 : HashRing) (v : Nat) (h : getObjectAssignNode r p = .ok (r1, v)) : r1 = r := by
  unfold getObjectAssignNode at h
  rw [hfree, rlock_free] at h
  simp only [← hfree] at h
  split at h
  · exact absurd h (by simp)
  · simp only [runlock_free r hfree, Except.ok.injEq, Prod.mk.injEq] at h
    exact h.1.symm

/-! ## The invariant of reachable rings -/

/-- A ring returned by `NewConsistentHashRing` with a positive factor satisfies the invariant. -/
theorem construct_inv (fn : List Nat → Nat) (rep : Int) (nodes : List Nat) (r : HashRing)
    (hrep : 0 < rep) (h : NewConsistentHashRing fn rep nodes = .ok r) : Inv r := by
  have hne : rep ≠ 0 := by omega
  unfold NewConsistentHashRing at h
  cases nodes with
  | nil =>
    simp only [constructVirtualNodes, Except.ok.injEq] at h
    subst h
    exact ⟨hrep, rfl, by simp, by simp, by simp⟩
  | cons p rest =>
    by_cases hm : toUint32 (cutRangeOf rep) = 0
    · rw [constructVirtualNodes_zero rep hrep hm] at h
      exact absurd h (by simp)
    · rw [constructVirtualNodes_ok rep hne hm] at h
      simp only [List.nil_append, Except.ok.injEq] at h
      subst h
      refine ⟨hrep, rfl, ?_, ?_, fun _ => hm⟩
      · exact List.sorted_insertionSort _ _
      · exact List.perm_insertionSort _ _

/-- A call of `addPNode` that returns did not meet a zero modulus. -/
theorem addPNode_modulus (r : HashRing) (n : Nat) (r1 : HashRing) (hvf : 0 < r.virtualFactor)
    (hfree : r.rwMu = RWMutex.free) (h : addPNode r n = .ok r1) :
    toUint32 (cutRangeOf r.virtualFactor) ≠ 0 := by
  intro hm
  have hz := insertVirtualNodes_zero r.virtualFactor hvf hm n r.virtualNodeSlice
  simp only [cutRangeOf] at hz
  simp [addPNode, hfree, lock_free, divInt_ok _ _ (show r.virtualFactor ≠ 0 by omega), hz] at h

theorem addPNode_inv (r : HashRing) (n : Nat) (r1 : HashRing) (hr : Inv r)
    (h : addPNode r n = .ok r1) : Inv r1 := by
  have hm := addPNode_modulus r n r1 hr.factor hr.free h
  obtain ⟨vs1, h1, h2, h3⟩ := addPNode_ok r n hr.free (by have := hr.factor; omega) hm hr.sorted
  rw [h1] at h
  simp only [Except.ok.injEq] at h
  subst h
  refine ⟨hr.factor, rfl, h2, ?_, fun _ => hm⟩
  simp only [List.flatMap_append, List.flatMap_cons, List.flatMap_nil, List.append_nil]
  exact h3.trans (List.perm_append_comm.trans (List.Perm.append_right _ hr.perm))

/-- On a ring that satisfies the invariant, the virtual nodes are the positions of any
present node together with the positions of the other nodes. -/
theorem inv_split (r : HashRing) (n : Nat) (hr : Inv r) (hn : n ∈ r.physicalNodeSlice) :
    r.virtualNodeSlice.Perm (positions r.virtualFactor n ++
      (r.physicalNodeSlice.erase n).flatMap (positions r.virtualFactor)) := by
  refine hr.perm.trans ?_
  have := List.Perm.flatMap_right (positions r.virtualFactor) (List.perm_cons_erase hn)
  simpa [List.flatMap_cons] using this

theorem removePNode_inv (r : HashRing) (n : Nat) (r1 : HashRing) (e : Option Err) (hr : Inv r)
    (h : removePNode r n = .ok (r1, e)) : Inv r1 := by
  have hvf : r.virtualFactor ≠ 0 := by have := hr.factor; omega
  by_cases hn : n ∈ r.physicalNodeSlice
  · have hm := hr.modulus (List.ne_nil_of_mem hn)
    obtain ⟨vs1, h1, h2, h3⟩ := removePNode_ok r n _ hr.free hvf hm hr.sorted hn
      (inv_split r n hr hn)
    rw [h1] at h
    simp only [Except.ok.injEq, Prod.mk.injEq] at h
    obtain ⟨h, -⟩ := h
    subst h
    exact ⟨hr.factor, rfl, h2, h3, fun _ => hm⟩
  · obtain ⟨e1, h1⟩ := removePNode_absent r n hr.free hvf hn
    rw [h1] at h
    simp only [Except.ok.injEq, Prod.mk.injEq] at h
    rw [← h.1]
    exact hr

/-- Every reachable ring satisfies the invariant. -/
theorem reachable_inv (r : HashRing) (h : Reachable r) : Inv r := by
  induction h with
  | construct fn rep nodes r hrep h => exact construct_inv fn rep nodes r hrep h
  | addPNode r n r1 _ h ih => exact addPNode_inv r n r1 ih h
  | removePNode r n r1 e _ h ih => exact removePNode_inv r n r1 e ih h
  | add r b r1 k _ h ih =>
    rw [add_free r b ih.free] at h
    simp only [Except.ok.injEq, Prod.mk.injEq] at h
    rw [← h.1]
    exact ⟨ih.factor, rfl, ih.sorted, ih.perm, ih.modulus⟩
  | delete r key r1 e _ h ih =>
    rw [delete_blocked] at h
    exact absurd h (by simp)
  | get r key r1 res _ h ih =>
    rw [get_free r key ih.free] at h
    simp only [Except.ok.injEq, Prod.mk.injEq] at h
    rw [← h.1]
    exact ih
  | getObjectAssignNode r p r1 v _ h ih =>
    rw [getObjectAssignNode_state r p ih.free r1 v h]
    exact ih
  | PhysicalNodes r r1 l _ h ih =>
    rw [PhysicalNodes_free r ih.free] at h
    simp only [Except.ok.injEq, Prod.mk.injEq] at h
    rw [← h.1]
    exact ih
  | VirtualNodes r r1 l _ h ih =>
    rw [VirtualNodes_free r ih.free] at h
    simp only [Except.ok.injEq, Prod.mk.injEq] at h
    rw [← h.1]
    exact ih

/-! ## Successor lookup -/

/-- Taking and releasing the read lock of a mutex no writer holds leaves the ring as it was. -/
theorem runlock_rlock (r : HashRing) (hw : r.rwMu.writer = false) :
    { r with rwMu := RWMutex.RUnlock { writer := false, readers := r.rwMu.readers + 1 } } = r := by
  obtain ⟨d, ⟨w, n⟩, ks, hf, vf, ps, vs⟩ := r
  simp only at hw
  subst hw
  simp [RWMutex.RUnlock]

/-- The successor is unique. -/
theorem IsSuccessor.unique (vs : List Nat) (p v w : Nat) (hv : IsSuccessor vs p v)
    (hw : IsSuccessor vs p w) : v = w := by
  obtain ⟨hv1, hv2, hv3⟩ := hv
  obtain ⟨hw1, hw2, hw3⟩ := hw
  by_cases h : ∃ x ∈ vs, p ≤ x
  · have a := hv2 h
    have b := hw2 h
    exact Nat.le_antisymm (a.2 w hw1 b.1) (b.2 v hv1 a.1)
  · have h1 : ∀ x ∈ vs, x < p := by
      intro x hx
      by_contra hc
      exact h ⟨x, hx, by omega⟩
    exact Nat.le_antisymm (hv3 h1 w hw1) (hw3 h1 v hv1)

/-- The successor only depends on which values occur in the slice. -/
theorem IsSuccessor.congr (vs ws : List Nat) (p v : Nat) (h : ∀ x, x ∈ vs ↔ x ∈ ws)
    (hv : IsSuccessor vs p v) : IsSuccessor ws p v := by
  obtain ⟨hv1, hv2, hv3⟩ := hv
  refine ⟨(h v).mp hv1, ?_, ?_⟩
  · rintro ⟨w, hw, hpw⟩
    have := hv2 ⟨w, (h w).mpr hw, hpw⟩
    exact ⟨this.1, fun x hx hpx => this.2 x ((h x).mpr hx) hpx⟩
  · intro hall x hx
    exact hv3 (fun y hy => hall y ((h y).mp hy)) x ((h x).mpr hx)

/-- A successor that survives the removal of some entries is still the successor. -/
theorem IsSuccessor.of_subset (vs ws : List Nat) (p v : Nat) (hsub : ∀ x ∈ ws, x ∈ vs)
    (hmem : v ∈ ws) (hv : IsSuccessor vs p v) : IsSuccessor ws p v := by
  obtain ⟨hv1, hv2, hv3⟩ := hv
  refine ⟨hmem, ?_, ?_⟩
  · rintro ⟨w, hw, hpw⟩
    have := hv2 ⟨w, hsub w hw, hpw⟩
    exact ⟨this.1, fun x hx hpx => this.2 x (hsub x hx) hpx⟩
  · intro hall x hx
    have hvp : v < p := hall v hmem
    have hall2 : ∀ y ∈ vs, y < p := by
      intro y hy
      by_contra hc
      have := (hv2 ⟨y, hy, by omega⟩).1
      omega
    exact hv3 hall2 x (hsub x hx)

/-- After entries are added, the successor is the old one or one of the new entries. -/
theorem IsSuccessor.of_superset (vs ws ds : List Nat) (p v w : Nat)
    (hmem : ∀ x, x ∈ ws ↔ x ∈ ds ∨ x ∈ vs) (hv : IsSuccessor vs p v)
    (hw : IsSuccessor ws p w) : w = v ∨ w ∈ ds := by
  obtain ⟨hv1, hv2, hv3⟩ := hv
  obtain ⟨hw1, hw2, hw3⟩ := hw
  rcases (hmem w).mp hw1 with hd | hwv
  · exact Or.inr hd
  · left
    have hvw : v ∈ ws := (hmem v).mpr (Or.inr hv1)
    by_cases h : ∃ x ∈ vs, p ≤ x
    · obtain ⟨x, hx, hpx⟩ := h
      have a := hv2 ⟨x, hx, hpx⟩
      have b := hw2 ⟨x, (hmem x).mpr (Or.inr hx), hpx⟩
      exact Nat.le_antisymm (b.2 v hvw a.1) (a.2 w hwv b.1)
    · have h1 : ∀ x ∈ vs, x < p := by
        intro x hx
        by_contra hc
        exact h ⟨x, hx, by omega⟩
      have hwp : w < p := h1 w hwv
      have h2 : ∀ y ∈ ws, y < p := by
        intro y hy
        by_contra hc
        have := (hw2 ⟨y, hy, by omega⟩).1
        omega
      exact Nat.le_antisymm (hw3 h2 v hvw) (hv3 h1 w hwv)

/-- On a non-empty ascending slice and a mutex no writer holds, `getObjectAssignNode`
returns the successor of the position and leaves the ring as it was. -/
theorem lookup_spec (r : HashRing) (p : Nat) (hw : r.rwMu.writer = false)
    (hne : r.virtualNodeSlice ≠ []) (hs : r.virtualNodeSlice.Sorted (fun a b => a ≤ b)) :
    ∃ v, getObjectAssignNode r p = .ok (r, v) ∧ IsSuccessor r.virtualNodeSlice p v := by
  obtain ⟨h1, h2, h3⟩ := sortSearch_spec r.virtualNodeSlice.length _
    (ge_pred_mono r.virtualNodeSlice p hs)
  have hlen : 0 < r.virtualNodeSlice.length := List.length_pos.mpr hne
  have hpair := List.pairwise_iff_getElem.mp hs
  unfold getObjectAssignNode
  simp only [RWMutex.RLock, hw, Bool.false_eq_true, if_false]
  by_cases hidx : sortSearch r.virtualNodeSlice.length
      (fun i => decide (r.virtualNodeSlice.getD i 0 ≥ p)) = r.virtualNodeSlice.length
  · have hall : ∀ w ∈ r.virtualNodeSlice, w < p := by
      intro w hw
      obtain ⟨k, hk, rfl⟩ := List.mem_iff_getElem.mp hw
      have := h2 k (by omega)
      rw [List.getD_eq_getElem _ 0 hk] at this
      simpa using this
    refine ⟨r.virtualNodeSlice[0], ?_, List.getElem_mem _, ?_, ?_⟩
    · simp only [hidx, if_true, index, List.getElem?_eq_getElem hlen, runlock_rlock r hw]
    · rintro ⟨w, hw, hpw⟩
      have := hall w hw
      omega
    · intro _ w hw
      obtain ⟨k, hk, rfl⟩ := List.mem_iff_getElem.mp hw
      rcases Nat.eq_zero_or_pos k with rfl | hpos
      · exact le_rfl
      · exact hpair 0 k hlen hk hpos
  · have hlt : sortSearch r.virtualNodeSlice.length
        (fun i => decide (r.virtualNodeSlice.getD i 0 ≥ p)) < r.virtualNodeSlice.length := by
      omega
    have hge := h3 _ le_rfl hlt
    rw [List.getD_eq_getElem _ 0 hlt] at hge
    simp only [decide_eq_true_eq] at hge
    refine ⟨r.virtualNodeSlice[sortSearch r.virtualNodeSlice.length
        (fun i => decide (r.virtualNodeSlice.getD i 0 ≥ p))], ?_, List.getElem_mem _, ?_, ?_⟩
    · simp only [hidx, if_false, index, List.getElem?_eq_getElem hlt, runlock_rlock r hw]
    · intro _
      refine ⟨hge, ?_⟩
      intro w hw hpw
      obtain ⟨k, hk, rfl⟩ := List.mem_iff_getElem.mp hw
      have hkge : sortSearch r.virtualNodeSlice.length
          (fun i => decide (r.virtualNodeSlice.getD i 0 ≥ p)) ≤ k := by
        by_contra hc
        have := h2 k (by omega)
        rw [List.getD_eq_getElem _ 0 hk] at this
        simp only [decide_eq_false_iff_not] at this
        omega
      rcases Nat.eq_or_lt_of_le hkge with heq | hlt2
      · simp only [heq]; exact le_rfl
      · exact hpair _ k hlt hk hlt2
    · intro hall
      have := hall _ (List.getElem_mem hlt)
      omega

theorem positions_length (vf : Int) (n : Nat) : (positions vf n).length = vf.toNat := by
  simp [positions]

theorem positions_ne_nil (vf : Int) (n : Nat) (h : 0 < vf) : positions vf n ≠ [] := by
  intro hc
  have := positions_length vf n
  rw [hc] at this
  simp at this
  omega

/-- The replica indices split at `k`: those handled before the `k`-th turn of the loop,
then `k`, then the later ones. -/
theorem range_split (m k : Nat) (hk : k < m) :
    ∃ later, List.range m = List.range k ++ k :: later := by
  obtain ⟨d, rfl⟩ : ∃ d, m = k + (d + 1) := ⟨m - k - 1, by omega⟩
  refine ⟨(List.range d).map (fun x => k + (x + 1)), ?_⟩
  rw [List.range_add, List.range_succ_eq_map]
  simp [Function.comp_def]

/-- In every turn of the loop of `removePNode`, on an ascending slice that holds the
positions of the node, the index found is in range and its entry is the position sought. -/
theorem removeVirtualNodes_turn (pNode : Nat) (vf : Int) (hvf : vf ≠ 0)
    (hm : toUint32 (cutRangeOf vf) ≠ 0) (vs rest : List Nat)
    (hs : vs.Sorted (fun a b => a ≤ b)) (hp : vs.Perm (positions vf pNode ++ rest))
    (k : Nat) (hk : k < vf.toNat) :
    ∃ vsk, removeVirtualNodes pNode (cutRangeOf vf) vf (List.range k) vs = .ok vsk ∧
      ∃ h : sortSearch vsk.length (fun i => decide (vsk.getD i 0 ≥ position vf pNode k))
          < vsk.length,
        vsk[sortSearch vsk.length (fun i => decide (vsk.getD i 0 ≥ position vf pNode k))] =
          position vf pNode k := by
  obtain ⟨later, hsplit⟩ := range_split vf.toNat k hk
  have hp1 : vs.Perm ((List.range k).map (position vf pNode) ++
      (position vf pNode k :: (later.map (position vf pNode) ++ rest))) := by
    simpa [positions, hsplit] using hp
  obtain ⟨vsk, h1, h2, h3⟩ := removeVirtualNodes_ok pNode vf hvf hm (List.range k) vs _ hs hp1
  refine ⟨vsk, h1, ?_⟩
  exact search_found vsk _ h2 (by rw [h3.mem_iff]; simp)

/-! ## The claims -/

/-- The example ring is what the constructor returns, hence reachable. -/
theorem exampleRing_reachable : Reachable exampleRing :=
  Reachable.construct (fun b => b.length) 2 [5, 9] exampleRing (by decide) rfl

/-- C1: on a ring whose virtual-node list is non-empty and ascending, for every position
`p`, `getObjectAssignNode(p)` returns an entry of the list: the least entry that is at
least `p` when there is one, and the least entry of all when `p` exceeds every entry. -/
theorem getObjectAssignNode_successor (r : HashRing) (p : Nat)
    (hw : r.rwMu.writer = false) (hne : r.virtualNodeSlice ≠ [])
    (hs : r.virtualNodeSlice.Sorted (fun a b => a ≤ b)) :
    ∃ v, getObjectAssignNode r p = .ok (r, v) ∧ v ∈ r.virtualNodeSlice ∧
      ((∃ w ∈ r.virtualNodeSlice, p ≤ w) →
        p ≤ v ∧ ∀ w ∈ r.virtualNodeSlice, p ≤ w → v ≤ w) ∧
      ((∀ w ∈ r.virtualNodeSlice, w < p) → ∀ w ∈ r.virtualNodeSlice, v ≤ w) :=
  lookup_spec r p hw hne hs

/-- Witness of C1 on the example ring, at position 7. -/
theorem getObjectAssignNode_successor_witness :
    (exampleRing.rwMu.writer = false ∧ exampleRing.virtualNodeSlice ≠ [] ∧
      exampleRing.virtualNodeSlice.Sorted (fun a b => a ≤ b)) ∧
    ∃ v, getObjectAssignNode exampleRing 7 = .ok (exampleRing, v) ∧
      v ∈ exampleRing.virtualNodeSlice ∧
      ((∃ w ∈ exampleRing.virtualNodeSlice, 7 ≤ w) →
        7 ≤ v ∧ ∀ w ∈ exampleRing.virtualNodeSlice, 7 ≤ w → v ≤ w) ∧
      ((∀ w ∈ exampleRing.virtualNodeSlice, w < 7) →
        ∀ w ∈ exampleRing.virtualNodeSlice, v ≤ w) :=
  ⟨⟨rfl, by decide, by decide⟩,
    getObjectAssignNode_successor exampleRing 7 rfl (by decide) (by decide)⟩

/-- C2: on a reachable ring, removing a present node `n` leaves the lookup of every
position whose successor was not one of the positions derived from `n` unchanged; and on
a reachable ring with at least one virtual node, after adding a node `n` the lookup of
every position returns the value it returned before or one of the positions derived
from `n`. Both calls return. -/
theorem membership_change_reassignment (r : HashRing) (hr : Reachable r) (n : Nat) :
    (n ∈ r.physicalNodeSlice →
      ∃ r1, removePNode r n = .ok (r1, none) ∧
        ∀ p, ∃ v, getObjectAssignNode r p = .ok (r, v) ∧
          (v ∉ positions r.virtualFactor n → getObjectAssignNode r1 p = .ok (r1, v))) ∧
    (r.virtualNodeSlice ≠ [] →
      ∃ r1, addPNode r n = .ok r1 ∧
        ∀ p, ∃ v v1, getObjectAssignNode r p = .ok (r, v) ∧
          getObjectAssignNode r1 p = .ok (r1, v1) ∧
          (v1 = v ∨ v1 ∈ positions r.virtualFactor n)) := by
  have hi := reachable_inv r hr
  have hvf : r.virtualFactor ≠ 0 := by have := hi.factor; omega
  have hw : r.rwMu.writer = false := by rw [hi.free]; rfl
  constructor
  · intro hn
    have hm := hi.modulus (List.ne_nil_of_mem hn)
    have hsplit := inv_split r n hi hn
    obtain ⟨vs1, h1, h2, h3⟩ := removePNode_ok r n _ hi.free hvf hm hi.sorted hn hsplit
    refine ⟨_, h1, ?_⟩
    intro p
    have hne : r.virtualNodeSlice ≠ [] := by
      intro hc
      rw [hc] at hsplit
      have := hsplit.length_eq
      have hl := positions_length r.virtualFactor n
      have := hi.factor
      simp only [List.length_nil, List.length_append] at *
      omega
    obtain ⟨v, hv1, hv2⟩ := lookup_spec r p hw hne hi.sorted
    refine ⟨v, hv1, ?_⟩
    intro hnot
    have hv3 : v ∈ vs1 := by
      have hmem := hv2.1
      rw [hsplit.mem_iff, List.mem_append] at hmem
      rcases hmem with hmem | hmem
      · exact absurd hmem hnot
      · exact h3.mem_iff.mpr hmem
    have hsub : ∀ x ∈ vs1, x ∈ r.virtualNodeSlice := by
      intro x hx
      rw [hsplit.mem_iff, List.mem_append]
      exact Or.inr (h3.mem_iff.mp hx)
    have hsucc := IsSuccessor.of_subset r.virtualNodeSlice vs1 p v hsub hv3 hv2
    obtain ⟨v1, hv4, hv5⟩ := lookup_spec
      { r with rwMu := RWMutex.free
               physicalNodeSlice := r.physicalNodeSlice.erase n
               virtualNodeSlice := vs1 } p rfl (List.ne_nil_of_mem hv3) h2
    rw [hv4, IsSuccessor.unique vs1 p v1 v hv5 hsucc]
  · intro hne
    have hphys : r.physicalNodeSlice ≠ [] := by
      intro hc
      have := hi.perm
      rw [hc] at this
      exact hne (List.Perm.eq_nil (by simpa using this))
    have hm := hi.modulus hphys
    obtain ⟨vs1, h1, h2, h3⟩ := addPNode_ok r n hi.free hvf hm hi.sorted
    refine ⟨_, h1, ?_⟩
    intro p
    obtain ⟨v, hv1, hv2⟩ := lookup_spec r p hw hne hi.sorted
    have hne1 : vs1 ≠ [] := by
      intro hc
      rw [hc] at h3
      exact hne (List.append_eq_nil.mp (List.Perm.eq_nil h3.symm)).2
    obtain ⟨v1, hv4, hv5⟩ := lookup_spec
      { r with rwMu := RWMutex.free
               physicalNodeSlice := r.physicalNodeSlice ++ [n]
               virtualNodeSlice := vs1 } p rfl hne1 h2
    refine ⟨v, v1, hv1, hv4, ?_⟩
    refine IsSuccessor.of_superset r.virtualNodeSlice vs1 _ p v v1 ?_ hv2 hv5
    intro x
    rw [h3.mem_iff, List.mem_append]

/-- Witness of C2 on the example ring, for the present node 5. -/
theorem membership_change_reassignment_witness :
    Reachable exampleRing ∧ 5 ∈ exampleRing.physicalNodeSlice ∧
    exampleRing.virtualNodeSlice ≠ [] ∧
    (∃ r1, removePNode exampleRing 5 = .ok (r1, none) ∧
      ∀ p, ∃ v, getObjectAssignNode exampleRing p = .ok (exampleRing, v) ∧
        (v ∉ positions exampleRing.virtualFactor 5 →
          getObjectAssignNode r1 p = .ok (r1, v))) ∧
    (∃ r1, addPNode exampleRing 5 = .ok r1 ∧
      ∀ p, ∃ v v1, getObjectAssignNode exampleRing p = .ok (exampleRing, v) ∧
        getObjectAssignNode r1 p = .ok (r1, v1) ∧
        (v1 = v ∨ v1 ∈ positions exampleRing.virtualFactor 5)) :=
  ⟨exampleRing_reachable, by decide, by decide,
    (membership_change_reassignment exampleRing exampleRing_reachable 5).1 (by decide),
    (membership_change_reassignment exampleRing exampleRing_reachable 5).2 (by decide)⟩

/-- C3: in every reachable ring, `VirtualNodes()` is a rearrangement of the positions
derived from the ids of `PhysicalNodes()`, taken together, and so its length is the
number of physical nodes times the replication factor. -/
theorem virtualNodes_are_derived_positions (r : HashRing) (hr : Reachable r) :
    ∃ vs ps, VirtualNodes r = .ok (r, vs) ∧ PhysicalNodes r = .ok (r, ps) ∧
      vs.Perm (ps.flatMap (positions r.virtualFactor)) ∧
      (vs.length : Int) = ps.length * r.virtualFactor := by
  have hi := reachable_inv r hr
  refine ⟨_, _, VirtualNodes_free r hi.free, PhysicalNodes_free r hi.free, hi.perm, ?_⟩
  rw [hi.perm.length_eq]
  have hlen : ∀ l : List Nat, ((l.flatMap (positions r.virtualFactor)).length : Int) =
      l.length * r.virtualFactor := by
    intro l
    induction l with
    | nil => simp
    | cons a l ih =>
      have := hi.factor
      simp only [List.flatMap_cons, List.length_append, positions_length, List.length_cons]
      push_cast
      rw [ih, Int.toNat_of_nonneg (by omega)]
      ring
  exact hlen _

/-- Witness of C3 on the example ring. -/
theorem virtualNodes_are_derived_positions_witness :
    Reachable exampleRing ∧
    ∃ vs ps, VirtualNodes exampleRing = .ok (exampleRing, vs) ∧
      PhysicalNodes exampleRing = .ok (exampleRing, ps) ∧
      vs.Perm (ps.flatMap (positions exampleRing.virtualFactor)) ∧
      (vs.length : Int) = ps.length * exampleRing.virtualFactor :=
  ⟨exampleRing_reachable, virtualNodes_are_derived_positions exampleRing exampleRing_reachable⟩

/-- C4: in every reachable ring, whatever calls led to it and whether its removals
succeeded or failed, `VirtualNodes()` is ascending. -/
theorem virtualNodes_sorted (r : HashRing) (hr : Reachable r) :
    ∃ vs, VirtualNodes r = .ok (r, vs) ∧ vs.Sorted (fun a b => a ≤ b) := by
  have hi := reachable_inv r hr
  exact ⟨_, VirtualNodes_free r hi.free, hi.sorted⟩

/-- Witness of C4 on the example ring. -/
theorem virtualNodes_sorted_witness :
    Reachable exampleRing ∧
    ∃ vs, VirtualNodes exampleRing = .ok (exampleRing, vs) ∧ vs.Sorted (fun a b => a ≤ b) :=
  ⟨exampleRing_reachable, virtualNodes_sorted exampleRing exampleRing_reachable⟩

/-- C5: on a reachable ring, `removePNode(id)` for a present `id` returns without error;
it removes exactly `virtualFactor` entries, the old virtual-node list being a
rearrangement of the new one together with the positions derived from `id`; and in every
turn `k` of its loop the computed position is the `k`-th derived one, the index found
for it is in range, and the entry at that index equals it. -/
theorem removePNode_removes_derived_positions (r : HashRing) (hr : Reachable r) (id : Nat)
    (hid : id ∈ r.physicalNodeSlice) :
    ∃ r1, removePNode r id = .ok (r1, none) ∧
      r1.virtualNodeSlice.length + r.virtualFactor.toNat = r.virtualNodeSlice.length ∧
      r.virtualNodeSlice.Perm (r1.virtualNodeSlice ++ positions r.virtualFactor id) ∧
      ∀ k, k < r.virtualFactor.toNat →
        virtualNode id (cutRangeOf r.virtualFactor) r.virtualFactor k =
          .ok (position r.virtualFactor id k) ∧
        ∃ vsk, removeVirtualNodes id (cutRangeOf r.virtualFactor) r.virtualFactor
            (List.range k) r.virtualNodeSlice = .ok vsk ∧
          ∃ h : sortSearch vsk.length
              (fun i => decide (vsk.getD i 0 ≥ position r.virtualFactor id k)) < vsk.length,
            vsk[sortSearch vsk.length
              (fun i => decide (vsk.getD i 0 ≥ position r.virtualFactor id k))] =
              position r.virtualFactor id k := by
  have hi := reachable_inv r hr
  have hvf : r.virtualFactor ≠ 0 := by have := hi.factor; omega
  have hm := hi.modulus (List.ne_nil_of_mem hid)
  have hsplit := inv_split r id hi hid
  obtain ⟨vs1, h1, h2, h3⟩ := removePNode_ok r id _ hi.free hvf hm hi.sorted hid hsplit
  have hperm : r.virtualNodeSlice.Perm (vs1 ++ positions r.virtualFactor id) :=
    hsplit.trans (List.perm_append_comm.trans (List.Perm.append_right _ h3.symm))
  refine ⟨_, h1, ?_, hperm, ?_⟩
  · have := hperm.length_eq
    simp only [List.length_append, positions_length] at this
    show vs1.length + r.virtualFactor.toNat = r.virtualNodeSlice.length
    omega
  · intro k hk
    exact ⟨virtualNode_eq id r.virtualFactor k hvf hm,
      removeVirtualNodes_turn id r.virtualFactor hvf hm r.virtualNodeSlice _ hi.sorted hsplit k hk⟩

/-- Witness of C5 on the example ring, for the present node 9. -/
theorem removePNode_removes_derived_positions_witness :
    (Reachable exampleRing ∧ 9 ∈ exampleRing.physicalNodeSlice) ∧
    ∃ r1, removePNode exampleRing 9 = .ok (r1, none) ∧
      r1.virtualNodeSlice.length + exampleRing.virtualFactor.toNat =
        exampleRing.virtualNodeSlice.length ∧
      exampleRing.virtualNodeSlice.Perm
        (r1.virtualNodeSlice ++ positions exampleRing.virtualFactor 9) ∧
      ∀ k, k < exampleRing.virtualFactor.toNat →
        virtualNode 9 (cutRangeOf exampleRing.virtualFactor) exampleRing.virtualFactor k =
          .ok (position exampleRing.virtualFactor 9 k) ∧
        ∃ vsk, removeVirtualNodes 9 (cutRangeOf exampleRing.virtualFactor)
            exampleRing.virtualFactor (List.range k) exampleRing.virtualNodeSlice = .ok vsk ∧
          ∃ h : sortSearch vsk.length
              (fun i => decide (vsk.getD i 0 ≥ position exampleRing.virtualFactor 9 k))
                < vsk.length,
            vsk[sortSearch vsk.length
              (fun i => decide (vsk.getD i 0 ≥ position exampleRing.virtualFactor 9 k))] =
              position exampleRing.virtualFactor 9 k :=
  ⟨⟨exampleRing_reachable, by decide⟩,
    removePNode_removes_derived_positions exampleRing exampleRing_reachable 9 (by decide)⟩

/-- C6: on every ring whose mutex is free, for every hash function and payload `x`,
`add(x)` returns `hashFun(x)` and `get` of that key right afterwards returns no error and
the payload `x`, whatever the key held before. -/
theorem add_get_round_trip (r : HashRing) (x : List Nat) (hfree : r.rwMu = RWMutex.free) :
    ∃ r1 idx, add r x = .ok (r1, r.hashFun x) ∧
      get r1 (r.hashFun x) = .ok (r1, none, idx, x) := by
  refine ⟨_, ((sortSearch (SortedInsert r.keySlice (r.hashFun x)).length
    (fun i => decide ((SortedInsert r.keySlice (r.hashFun x)).getD i 0 ≥ r.hashFun x)) : Nat) :
      Int), add_free r x hfree, ?_⟩
  rw [get_free _ _ rfl]
  simp

/-- Witness of C6 on a ring whose key 1 already holds another payload. -/
theorem add_get_round_trip_witness :
    occupiedRing.rwMu = RWMutex.free ∧ occupiedRing.ringData 1 = some [7] ∧
    ∃ r1 idx, add occupiedRing [9] = .ok (r1, occupiedRing.hashFun [9]) ∧
      get r1 (occupiedRing.hashFun [9]) = .ok (r1, none, idx, [9]) :=
  ⟨rfl, rfl, add_get_round_trip occupiedRing [9] rfl⟩

/-- C7, evaluated: on the example ring, after `key = add(x)` for any payload `x`, the
call `delete(key)` does not return: it blocks on the read lock that `get` requests while
`delete` holds the write lock. The same holds of `delete` on every ring and key. -/
theorem add_then_delete_blocks (x : List Nat) :
    (∃ r1, add exampleRing x = .ok (r1, exampleRing.hashFun x) ∧
      delete r1 (exampleRing.hashFun x) = .error .blocked) ∧
    ∀ (r : HashRing) (key : Nat), delete r key = .error .blocked :=
  ⟨⟨_, add_free exampleRing x rfl, delete_blocked _ _⟩, delete_blocked⟩

/-- C8, evaluated: on the ring built for no node, whose virtual-node list is empty,
`getObjectAssignNode(p)` reads the first entry of the empty list and panics with an index
out of range, for every position `p`. -/
theorem getObjectAssignNode_empty_panics (p : Nat) :
    NewConsistentHashRing (fun b => b.length) 4 [] = .ok emptyRing ∧
      getObjectAssignNode emptyRing p = .error .indexOutOfRange :=
  ⟨rfl, rfl⟩

/-- With a negative factor the loops of the constructor derive no position. -/
theorem constructVirtualNodes_negative (rep : Int) (h : rep < 0) :
    ∀ (nodes vs : List Nat), constructVirtualNodes rep nodes vs = .ok vs := by
  intro nodes
  induction nodes with
  | nil => intro vs; rfl
  | cons p rest ih =>
    intro vs
    have h0 : rep.toNat = 0 := by omega
    simp [constructVirtualNodes, divInt_ok _ _ (show rep ≠ 0 by omega), h0,
      appendVirtualNodes, ih]

/-- C9, counterexample: with the replication factor -1 and the node 5, and with the
factor 0 and no node, `NewConsistentHashRing` returns a ring. -/
theorem NewConsistentHashRing_nonpositive_returns :
    NewConsistentHashRing (fun b => b.length) (-1) [5] =
      .ok { ringData := fun _ => none
            rwMu := RWMutex.free
            keySlice := []
            hashFun := fun b => b.length
            virtualFactor := -1
            physicalNodeSlice := [5]
            virtualNodeSlice := [] } ∧
    NewConsistentHashRing (fun b => b.length) 0 [] =
      .ok { ringData := fun _ => none
            rwMu := RWMutex.free
            keySlice := []
            hashFun := fun b => b.length
            virtualFactor := 0
            physicalNodeSlice := []
            virtualNodeSlice := [] } :=
  ⟨rfl, rfl⟩

/-- C9, amended: for every negative replication factor and every node list, and for the
factor 0 with the empty node list, `NewConsistentHashRing` returns a ring; it keeps the
factor and the node list and has no virtual node. -/
theorem NewConsistentHashRing_nonpositive (fn : List Nat → Nat) (rep : Int) (nodes : List Nat)
    (h : rep < 0 ∨ (rep = 0 ∧ nodes = [])) :
    NewConsistentHashRing fn rep nodes =
      .ok { ringData := fun _ => none
            rwMu := RWMutex.free
            keySlice := []
            hashFun := fn
            virtualFactor := rep
            physicalNodeSlice := nodes
            virtualNodeSlice := [] } := by
  rcases h with h | ⟨h1, h2⟩
  · simp [NewConsistentHashRing, constructVirtualNodes_negative rep h]
  · subst h1 h2
    rfl

/-- Witness of the amended C9 for the factor -3 and the nodes 1, 2. -/
theorem NewConsistentHashRing_nonpositive_witness :
    ((-3 : Int) < 0 ∨ ((-3 : Int) = 0 ∧ [1, 2] = ([] : List Nat))) ∧
    NewConsistentHashRing (fun b => b.length) (-3) [1, 2] =
      .ok { ringData := fun _ => none
            rwMu := RWMutex.free
            keySlice := []
            hashFun := fun b => b.length
            virtualFactor := -3
            physicalNodeSlice := [1, 2]
            virtualNodeSlice := [] } :=
  ⟨Or.inl (by decide),
    NewConsistentHashRing_nonpositive (fun b => b.length) (-3) [1, 2] (Or.inl (by decide))⟩

/-- C10, evaluated: for the replication factor 1 the quotient `MAXCAPACITY / 1` is `2^32`,
its conversion to `uint32` is 0, and the remainder by it panics with a division by zero,
in `NewConsistentHashRing` on the node 0 and in `addPNode(0)` on the ring built for no
node. -/
theorem unit_factor_divides_by_zero :
    divInt MAXCAPACITY 1 = .ok 4294967296 ∧ toUint32 4294967296 = 0 ∧
    NewConsistentHashRing (fun b => b.length) 1 [0] = .error .divideByZero ∧
    NewConsistentHashRing (fun b => b.length) 1 [] = .ok unitFactorRing ∧
    addPNode unitFactorRing 0 = .error .divideByZero :=
  ⟨rfl, rfl, rfl, rfl, rfl⟩

/-! ## Placement arithmetic, frames and the key list -/

/-- A natural number below `2^63` is an `int` as it stands. -/
theorem wrapInt_natCast (n : Nat) (h : n < 9223372036854775808) : wrapInt (n : Int) = n := by
  unfold wrapInt
  omega

/-- A natural number below `2^32` is a `uint32` as it stands. -/
theorem toUint32_natCast (n : Nat) (h : n < 4294967296) : toUint32 (n : Int) = n := by
  unfold toUint32
  rw [Int.emod_eq_of_lt (by omega) (by omega), Int.toNat_natCast]

/-- The bands of the ring: the quotient `2^32 / R` added to the start of the band `i`
does not pass the start of the band `i + 1`, which is at most `2^32` for `i < R`. -/
theorem band_step (R i : Nat) (hR : 0 < R) (hi : i < R) :
    i * 4294967296 / R + 4294967296 / R ≤ (i + 1) * 4294967296 / R ∧
      (i + 1) * 4294967296 / R ≤ 4294967296 := by
  constructor
  · have := Nat.add_div_le_add_div (i * 4294967296) 4294967296 R
    have h2 : (i + 1) * 4294967296 = i * 4294967296 + 4294967296 := by ring
    rw [h2]
    exact this
  · have h1 : (i + 1) * 4294967296 ≤ 4294967296 * R := by nlinarith
    calc (i + 1) * 4294967296 / R ≤ 4294967296 * R / R := Nat.div_le_div_right h1
      _ = 4294967296 := Nat.mul_div_cancel _ hR

/-- For a factor between 2 and `2^31` nothing wraps in the placement expression: the
`i`-th position of the node `id` is `id mod (2^32 / R) + i * 2^32 / R`. -/
theorem position_eq (R id i : Nat) (h2 : 2 ≤ R) (hR : R ≤ 2147483648) (hi : i < R) :
    position (R : Int) id i = id % (4294967296 / R) + i * 4294967296 / R := by
  have hq1 : 4294967296 / R ≤ 2147483648 := by
    calc 4294967296 / R ≤ 4294967296 / 2 := Nat.div_le_div_left h2 (by norm_num)
      _ = 2147483648 := by norm_num
  have hq0 : 0 < 4294967296 / R := Nat.div_pos (by omega) (by omega)
  have hband := band_step R i (by omega) hi
  have hmod : id % (4294967296 / R) < 4294967296 / R := Nat.mod_lt _ hq0
  have hcut : cutRangeOf (R : Int) = ((4294967296 / R : Nat) : Int) := by
    unfold cutRangeOf MAXCAPACITY
    rw [show (4294967296 : Int) = ((4294967296 : Nat) : Int) by norm_num, ← Int.ofNat_tdiv]
    exact wrapInt_natCast _ (by omega)
  have hprod : wrapInt ((i : Int) * MAXCAPACITY) = ((i * 4294967296 : Nat) : Int) := by
    unfold MAXCAPACITY
    rw [show (i : Int) * 4294967296 = ((i * 4294967296 : Nat) : Int) by push_cast; ring]
    exact wrapInt_natCast _ (by omega)
  have hquot : wrapInt (Int.tdiv (wrapInt ((i : Int) * MAXCAPACITY)) (R : Int)) =
      ((i * 4294967296 / R : Nat) : Int) := by
    rw [hprod, ← Int.ofNat_tdiv]
    exact wrapInt_natCast _ (by omega)
  unfold position
  rw [hcut, hquot, toUint32_natCast _ (by omega), toUint32_natCast _ (by omega)]
  exact Nat.mod_eq_of_lt (by omega)

end ConsistentHashRing
namespace ConsistentHashRing

/-- For a factor between 2 and `2^31` the modulus of the placement expression is the
quotient `2^32 / R`, which is not zero. -/
theorem modulus_eq (R : Nat) (h2 : 2 ≤ R) (hR : R ≤ 2147483648) :
    toUint32 (cutRangeOf (R : Int)) = 4294967296 / R ∧ 0 < 4294967296 / R := by
  have hq1 : 4294967296 / R ≤ 2147483648 := by
    calc 4294967296 / R ≤ 4294967296 / 2 := Nat.div_le_div_left h2 (by norm_num)
      _ = 2147483648 := by norm_num
  have hq0 : 0 < 4294967296 / R := Nat.div_pos (by omega) (by omega)
  refine ⟨?_, hq0⟩
  unfold cutRangeOf MAXCAPACITY
  rw [show (4294967296 : Int) = ((4294967296 : Nat) : Int) by norm_num, ← Int.ofNat_tdiv,
    wrapInt_natCast _ (by omega)]
  exact toUint32_natCast _ (by omega)

/-- The write lock of a mutex that is not free is not granted. -/
theorem lock_blocked (m : RWMutex) (h : m ≠ RWMutex.free) : m.Lock = .error .blocked := by
  obtain ⟨w, n⟩ := m
  unfold RWMutex.Lock
  by_cases hc : w = true ∨ n ≠ 0
  · simp [hc]
  · simp only [not_or, Bool.not_eq_true, ne_eq, not_not] at hc
    exact absurd (by simp [RWMutex.free, hc.1, hc.2]) h

/-- A call of `addPNode` that returns leaves the objects, the hash function and the factor
as they were, appends the node, and releases the mutex it found free. -/
theorem addPNode_frame (r : HashRing) (n : Nat) (r1 : HashRing) (h : addPNode r n = .ok r1) :
    r1.ringData = r.ringData ∧ r1.keySlice = r.keySlice ∧ r1.hashFun = r.hashFun ∧
      r1.virtualFactor = r.virtualFactor ∧ r1.physicalNodeSlice = r.physicalNodeSlice ++ [n] ∧
      r.rwMu = RWMutex.free ∧ r1.rwMu = RWMutex.free := by
  unfold addPNode at h
  have hmu : r.rwMu = RWMutex.free := by
    by_contra hc
    rw [lock_blocked r.rwMu hc] at h
    exact absurd h (by simp)
  rw [hmu, lock_free] at h
  simp only at h
  split at h
  · exact absurd h (by simp)
  · split at h
    · exact absurd h (by simp)
    · simp only [Except.ok.injEq] at h
      subst h
      exact ⟨rfl, rfl, rfl, rfl, rfl, hmu, rfl⟩

/-- A call of `removePNode` that returns leaves the objects, the hash function and the
factor as they were, and releases the mutex it found free. -/
theorem removePNode_frame (r : HashRing) (n : Nat) (r1 : HashRing) (e : Option Err)
    (h : removePNode r n = .ok (r1, e)) :
    r1.ringData = r.ringData ∧ r1.keySlice = r.keySlice ∧ r1.hashFun = r.hashFun ∧
      r1.virtualFactor = r.virtualFactor ∧ r.rwMu = RWMutex.free ∧ r1.rwMu = RWMutex.free := by
  unfold removePNode at h
  have hmu : r.rwMu = RWMutex.free := by
    by_contra hc
    rw [lock_blocked r.rwMu hc] at h
    exact absurd h (by simp)
  rw [hmu, lock_free] at h
  simp only at h
  split at h
  · exact absurd h (by simp)
  · split at h
    · simp only [Except.ok.injEq, Prod.mk.injEq] at h
      rw [← h.1]
      exact ⟨rfl, rfl, rfl, rfl, hmu, rfl⟩
    · split at h
      · simp only [Except.ok.injEq, Prod.mk.injEq] at h
        rw [← h.1]
        exact ⟨rfl, rfl, rfl, rfl, hmu, rfl⟩
      · split at h
        · exact absurd h (by simp)
        · split at h
          · exact absurd h (by simp)
          · simp only [Except.ok.injEq, Prod.mk.injEq] at h
            rw [← h.1]
            exact ⟨rfl, rfl, rfl, rfl, hmu, rfl⟩

/-- On a reachable ring `removePNode` returns: without error and with the first occurrence
of the node erased when the node is present, with an error and the ring as it was when
it is absent. -/
theorem removePNode_reachable (r : HashRing) (hr : Reachable r) (n : Nat) :
    (n ∈ r.physicalNodeSlice ∧ ∃ vs1, removePNode r n = .ok ({ r with
        rwMu := RWMutex.free
        physicalNodeSlice := r.physicalNodeSlice.erase n
        virtualNodeSlice := vs1 }, none)) ∨
    (n ∉ r.physicalNodeSlice ∧ ∃ e, removePNode r n = .ok (r, some e)) := by
  have hi := reachable_inv r hr
  have hvf : r.virtualFactor ≠ 0 := by have := hi.factor; omega
  by_cases hn : n ∈ r.physicalNodeSlice
  · left
    obtain ⟨vs1, h1, -, -⟩ := removePNode_ok r n _ hi.free hvf
      (hi.modulus (List.ne_nil_of_mem hn)) hi.sorted hn (inv_split r n hi hn)
    exact ⟨hn, vs1, h1⟩
  · right
    exact ⟨hn, removePNode_absent r n hi.free hvf hn⟩

/-- In every reachable ring the key list is ascending and holds exactly the keys of the
object map. -/
theorem reachable_keys (r : HashRing) (h : Reachable r) :
    r.keySlice.Sorted (fun a b => a ≤ b) ∧ ∀ k, k ∈ r.keySlice ↔ r.ringData k ≠ none := by
  induction h with
  | construct fn rep nodes r hrep h =>
    unfold NewConsistentHashRing at h
    split at h
    · exact absurd h (by simp)
    · simp only [Except.ok.injEq] at h
      subst h
      simp
  | addPNode r n r1 _ h ih =>
    obtain ⟨h1, h2, -⟩ := addPNode_frame r n r1 h
    rw [h1, h2]
    exact ih
  | removePNode r n r1 e _ h ih =>
    obtain ⟨h1, h2, -⟩ := removePNode_frame r n r1 e h
    rw [h1, h2]
    exact ih
  | add r b r1 k hr h ih =>
    rw [add_free r b (reachable_inv r hr).free] at h
    simp only [Except.ok.injEq, Prod.mk.injEq] at h
    rw [← h.1]
    refine ⟨SortedInsert_sorted _ _ ih.1, ?_⟩
    intro x
    simp only [(SortedInsert_perm r.keySlice (r.hashFun b)).mem_iff, List.mem_cons, ih.2]
    by_cases hx : x = r.hashFun b <;> simp [hx]
  | delete r key r1 e _ h ih =>
    rw [delete_blocked] at h
    exact absurd h (by simp)
  | get r key r1 res hr h ih =>
    rw [get_free r key (reachable_inv r hr).free] at h
    simp only [Except.ok.injEq, Prod.mk.injEq] at h
    rw [← h.1]
    exact ih
  | getObjectAssignNode r p r1 v hr h ih =>
    rw [getObjectAssignNode_state r p (reachable_inv r hr).free r1 v h]
    exact ih
  | PhysicalNodes r r1 l hr h ih =>
    rw [PhysicalNodes_free r (reachable_inv r hr).free] at h
    simp only [Except.ok.injEq, Prod.mk.injEq] at h
    rw [← h.1]
    exact ih
  | VirtualNodes r r1 l hr h ih =>
    rw [VirtualNodes_free r (reachable_inv r hr).free] at h
    simp only [Except.ok.injEq, Prod.mk.injEq] at h
    rw [← h.1]
    exact ih

/-! ## The claims, continued -/

/-- C11, counterexample: for the factor 6 the code computes `0 mod 715827882 + 2 * 2^32 / 6 =
1431655765` as the position of index 2 of the node 0, while the formula of the claim,
`0 mod (2^32 / 6) + 2 * (2^32 / 6)`, gives 1431655764. -/
theorem virtualNode_factor_six :
    divInt MAXCAPACITY 6 = .ok 715827882 ∧
    virtualNode 0 715827882 6 2 = .ok 1431655765 ∧
    (0 % (4294967296 / 6) + 2 * (4294967296 / 6) : Nat) = 1431655764 ∧
    virtualNode 0 715827882 6 2 ≠ .ok (0 % (4294967296 / 6) + 2 * (4294967296 / 6)) ∧
    ∃ r, NewConsistentHashRing (fun b => b.length) 6 [0] = .ok r ∧
      r.virtualNodeSlice =
        [0, 715827882, 1431655765, 2147483648, 2863311530, 3579139413] :=
  ⟨rfl, rfl, rfl,
    fun h => absurd
      (Except.ok.inj ((rfl : virtualNode 0 715827882 6 2 = .ok 1431655765).symm.trans h))
      (by decide),
    _, rfl, rfl⟩

/-- C11, amended: for every factor `R` with `2 ≤ R ≤ 2^31`, every node id and every index
`i < R`, the quotient `MAXCAPACITY / R` does not panic and the expression shared by
`NewConsistentHashRing`, `addPNode` and `removePNode` yields
`id mod (2^32 / R) + i * 2^32 / R`; when `R` divides `2^32` this is
`id mod (2^32 / R) + i * (2^32 / R)`. -/
theorem virtualNode_formula (R id i : Nat) (h2 : 2 ≤ R) (hR : R ≤ 2147483648) (hi : i < R) :
    divInt MAXCAPACITY (R : Int) = .ok (cutRangeOf (R : Int)) ∧
    virtualNode id (cutRangeOf (R : Int)) (R : Int) i =
      .ok (id % (4294967296 / R) + i * 4294967296 / R) ∧
    (R ∣ 4294967296 →
      virtualNode id (cutRangeOf (R : Int)) (R : Int) i =
        .ok (id % (4294967296 / R) + i * (4294967296 / R))) := by
  have hvf : (R : Int) ≠ 0 := by omega
  have hm := modulus_eq R h2 hR
  have hv := virtualNode_eq id (R : Int) i hvf (by omega)
  rw [position_eq R id i h2 hR hi] at hv
  refine ⟨divInt_ok _ _ hvf, hv, ?_⟩
  intro hdvd
  rw [hv, Nat.mul_div_assoc i hdvd]

/-- Witness of the amended C11 for the factor 4, the node `2^32 - 1` and the index 3,
with the two lists of the test: the nodes 0, 1, `2^32 - 1` with the factors 4 and 8. -/
theorem virtualNode_formula_witness :
    (2 ≤ 4 ∧ 4 ≤ 2147483648 ∧ 3 < 4 ∧ 4 ∣ 4294967296) ∧
    (divInt MAXCAPACITY ((4 : Nat) : Int) = .ok (cutRangeOf ((4 : Nat) : Int)) ∧
      virtualNode 4294967295 (cutRangeOf ((4 : Nat) : Int)) ((4 : Nat) : Int) 3 =
        .ok (4294967295 % (4294967296 / 4) + 3 * 4294967296 / 4) ∧
      (4 ∣ 4294967296 →
        virtualNode 4294967295 (cutRangeOf ((4 : Nat) : Int)) ((4 : Nat) : Int) 3 =
          .ok (4294967295 % (4294967296 / 4) + 3 * (4294967296 / 4)))) ∧
    (∃ r, NewConsistentHashRing (fun b => b.length) 4 [0, 1, 4294967295] = .ok r ∧
      r.virtualNodeSlice =
        [0, 1, 1073741823, 1073741824, 1073741825, 2147483647, 2147483648, 2147483649,
          3221225471, 3221225472, 3221225473, 4294967295]) ∧
    (∃ r, NewConsistentHashRing (fun b => b.length) 8 [0, 1, 4294967295] = .ok r ∧
      r.virtualNodeSlice =
        [0, 1, 536870911, 536870912, 536870913, 1073741823, 1073741824, 1073741825,
          1610612735, 1610612736, 1610612737, 2147483647, 2147483648, 2147483649,
          2684354559, 2684354560, 2684354561, 3221225471, 3221225472, 3221225473,
          3758096383, 3758096384, 3758096385, 4294967295]) :=
  ⟨⟨by decide, by decide, by decide, by decide⟩,
    virtualNode_formula 4 4294967295 3 (by decide) (by decide) (by decide),
    ⟨_, rfl, rfl⟩, ⟨_, rfl, rfl⟩⟩

/-- C12: for every ascending slice `s` and every value `f`, `SortedInsert(s, f)` is
`s[0:j] ++ [f] ++ s[j:]` for the first index `j` whose entry is at least `f` (`j = len(s)`
when there is none); the result is ascending, one longer than `s`, a rearrangement of `f`
and `s`, and every entry before the new one is smaller than `f`. -/
theorem SortedInsert_spec (s : List Nat) (f : Nat) (hs : s.Sorted (fun a b => a ≤ b)) :
    ∃ j, j ≤ s.length ∧
      (∀ k (hk : k < s.length), (k < j → s[k] < f) ∧ (j ≤ k → f ≤ s[k])) ∧
      SortedInsert s f = s.take j ++ [f] ++ s.drop j ∧
      (∀ x ∈ s.take j, x < f) ∧
      (SortedInsert s f).Sorted (fun a b => a ≤ b) ∧
      (SortedInsert s f).length = s.length + 1 ∧
      (SortedInsert s f).Perm (f :: s) := by
  obtain ⟨h1, h2, h3⟩ := sortSearch_spec s.length _ (ge_pred_mono s f hs)
  refine ⟨sortSearch s.length (fun i => decide (s.getD i 0 ≥ f)), h1, ?_, ?_,
    (search_split s f hs).2.1, SortedInsert_sorted s f hs, ?_, SortedInsert_perm s f⟩
  · intro k hk
    constructor
    · intro hlt
      have := h2 k hlt
      rw [List.getD_eq_getElem s 0 hk] at this
      simpa using this
    · intro hge
      have := h3 k hge hk
      rw [List.getD_eq_getElem s 0 hk] at this
      simpa using this
  · rw [SortedInsert_eq]
    simp
  · rw [(SortedInsert_perm s f).length_eq]
    simp

/-- Witness of C12: 40 inserted into the slice of the test. -/
theorem SortedInsert_spec_witness :
    [1, 2, 4, 8, 16, 32, 64, 100].Sorted (fun a b => a ≤ b) ∧
    SortedInsert [1, 2, 4, 8, 16, 32, 64, 100] 40 = [1, 2, 4, 8, 16, 32, 40, 64, 100] ∧
    ∃ j, j ≤ [1, 2, 4, 8, 16, 32, 64, 100].length ∧
      (∀ k (hk : k < [1, 2, 4, 8, 16, 32, 64, 100].length),
        (k < j → [1, 2, 4, 8, 16, 32, 64, 100][k] < 40) ∧
        (j ≤ k → 40 ≤ [1, 2, 4, 8, 16, 32, 64, 100][k])) ∧
      SortedInsert [1, 2, 4, 8, 16, 32, 64, 100] 40 =
        [1, 2, 4, 8, 16, 32, 64, 100].take j ++ [40] ++ [1, 2, 4, 8, 16, 32, 64, 100].drop j ∧
      (∀ x ∈ [1, 2, 4, 8, 16, 32, 64, 100].take j, x < 40) ∧
      (SortedInsert [1, 2, 4, 8, 16, 32, 64, 100] 40).Sorted (fun a b => a ≤ b) ∧
      (SortedInsert [1, 2, 4, 8, 16, 32, 64, 100] 40).length =
        [1, 2, 4, 8, 16, 32, 64, 100].length + 1 ∧
      (SortedInsert [1, 2, 4, 8, 16, 32, 64, 100] 40).Perm
        (40 :: [1, 2, 4, 8, 16, 32, 64, 100]) :=
  ⟨by decide, by decide, SortedInsert_spec [1, 2, 4, 8, 16, 32, 64, 100] 40 (by decide)⟩


/-- The ring with the occupied key is what `add` makes of the example ring, hence reachable. -/
theorem occupiedRing_reachable : Reachable occupiedRing :=
  Reachable.add exampleRing [7] occupiedRing 1 exampleRing_reachable rfl

/-- Two rings with free mutexes and the same objects answer `get` alike. -/
theorem get_congr (s s1 : HashRing) (hs : s.rwMu = RWMutex.free) (hs1 : s1.rwMu = RWMutex.free)
    (hd : s1.ringData = s.ringData) (hk : s1.keySlice = s.keySlice) (k : Nat) :
    ∃ res, get s k = .ok (s, res) ∧ get s1 k = .ok (s1, res) := by
  refine ⟨_, get_free s k hs, ?_⟩
  rw [get_free s1 k hs1, hd, hk]

/-- A run of `addPNode` calls on a ring that satisfies the invariant and has a non-zero
modulus returns, with the ids appended to the physical nodes in the order of the calls. -/
theorem addPNodes_ok (ids : List Nat) :
    ∀ (r : HashRing), Inv r → toUint32 (cutRangeOf r.virtualFactor) ≠ 0 →
      ∃ r1, addPNodes r ids = .ok r1 ∧ Inv r1 ∧
        r1.physicalNodeSlice = r.physicalNodeSlice ++ ids := by
  induction ids with
  | nil => intro r hi _; exact ⟨r, rfl, hi, by simp⟩
  | cons a rest ih =>
    intro r hi hm
    have hvf : r.virtualFactor ≠ 0 := by have := hi.factor; omega
    obtain ⟨vs1, h1, -, -⟩ := addPNode_ok r a hi.free hvf hm hi.sorted
    have hi1 := addPNode_inv r a _ hi h1
    obtain ⟨r2, h2, hi2, h3⟩ := ih _ hi1 hm
    refine ⟨r2, ?_, hi2, ?_⟩
    · simp only [addPNodes, h1, h2]
    · rw [h3]
      simp

/-- C13: on a reachable ring `removePNode(id)` returns; it returns an error exactly when
`id` does not occur in the physical-node list (the empty list included), and then the
physical nodes, the virtual nodes, the object map and the key list are as before. -/
theorem removePNode_error_iff (r : HashRing) (hr : Reachable r) (id : Nat) :
    ∃ r1 e, removePNode r id = .ok (r1, e) ∧
      (e ≠ none ↔ id ∉ r.physicalNodeSlice) ∧
      (id ∉ r.physicalNodeSlice →
        r1.physicalNodeSlice = r.physicalNodeSlice ∧
        r1.virtualNodeSlice = r.virtualNodeSlice ∧
        r1.ringData = r.ringData ∧ r1.keySlice = r.keySlice) := by
  rcases removePNode_reachable r hr id with ⟨hn, vs1, h⟩ | ⟨hn, e, h⟩
  · exact ⟨_, none, h, by simp [hn], fun hc => absurd hn hc⟩
  · exact ⟨r, some e, h, by simp [hn], fun _ => ⟨rfl, rfl, rfl, rfl⟩⟩

/-- Witness of C13 on the example ring, the absent node 7 and the empty ring. -/
theorem removePNode_error_iff_witness :
    Reachable exampleRing ∧ 7 ∉ exampleRing.physicalNodeSlice ∧
    emptyRing.physicalNodeSlice = [] ∧
    ∃ r1 e, removePNode exampleRing 7 = .ok (r1, e) ∧
      (e ≠ none ↔ 7 ∉ exampleRing.physicalNodeSlice) ∧
      (7 ∉ exampleRing.physicalNodeSlice →
        r1.physicalNodeSlice = exampleRing.physicalNodeSlice ∧
        r1.virtualNodeSlice = exampleRing.virtualNodeSlice ∧
        r1.ringData = exampleRing.ringData ∧ r1.keySlice = exampleRing.keySlice) :=
  ⟨exampleRing_reachable, by decide, rfl,
    removePNode_error_iff exampleRing exampleRing_reachable 7⟩

/-- C14, evaluated: on the ring whose only key is 1, `get` returns for every key, with an
error exactly when the key is not in the map and with the ring as it was; `delete(3)`,
for the absent key 3, does not return the error: it blocks, as `delete(1)` does. -/
theorem delete_absent_key_blocks :
    occupiedRing.ringData 3 = none ∧ delete occupiedRing 3 = .error .blocked ∧
    occupiedRing.ringData 1 = some [7] ∧ delete occupiedRing 1 = .error .blocked ∧
    ∀ key, ∃ e idx v, get occupiedRing key = .ok (occupiedRing, e, idx, v) ∧
      (e ≠ none ↔ occupiedRing.ringData key = none) := by
  refine ⟨rfl, delete_blocked _ _, rfl, delete_blocked _ _, ?_⟩
  intro key
  rw [get_free occupiedRing key rfl]
  cases h : occupiedRing.ringData key with
  | none => exact ⟨_, _, _, rfl, by simp⟩
  | some v => exact ⟨_, _, _, rfl, by simp⟩

/-- C15: in every reachable ring, for every key of the object map, `get(key)` returns the
payload and an index `i` with `0 ≤ i < len(keySlice)` and `keySlice[i] = key`; the removal
`append(keySlice[:i], keySlice[i+1:]...)` at that index is therefore within bounds. -/
theorem get_index_in_keySlice (r : HashRing) (hr : Reachable r) (key : Nat) (v : List Nat)
    (hk : r.ringData key = some v) :
    ∃ i : Nat, get r key = .ok (r, none, (i : Int), v) ∧
      ∃ h : i < r.keySlice.length, r.keySlice[i] = key ∧
        sliceRemove r.keySlice i = .ok (r.keySlice.eraseIdx i) := by
  have hi := reachable_inv r hr
  obtain ⟨hs, hmem⟩ := reachable_keys r hr
  have hin : key ∈ r.keySlice := (hmem key).mpr (by simp [hk])
  obtain ⟨hlt, hget⟩ := search_found r.keySlice key hs hin
  refine ⟨sortSearch r.keySlice.length (fun i => decide (r.keySlice.getD i 0 ≥ key)), ?_,
    hlt, hget, (sliceRemove_perm _ _ hlt).1⟩
  rw [get_free r key hi.free, hk]

/-- Witness of C15 on the ring whose key 1 holds the payload `[7]`. -/
theorem get_index_in_keySlice_witness :
    (Reachable occupiedRing ∧ occupiedRing.ringData 1 = some [7]) ∧
    ∃ i : Nat, get occupiedRing 1 = .ok (occupiedRing, none, (i : Int), [7]) ∧
      ∃ h : i < occupiedRing.keySlice.length, occupiedRing.keySlice[i] = 1 ∧
        sliceRemove occupiedRing.keySlice i = .ok (occupiedRing.keySlice.eraseIdx i) :=
  ⟨⟨occupiedRing_reachable, rfl⟩,
    get_index_in_keySlice occupiedRing occupiedRing_reachable 1 [7] rfl⟩

/-- C16: `addPNode` and `removePNode`, on any ring and for any id, leave the object map
and the key list as they were whenever they return, without or with an error, so that
`get` answers every key as before; on a reachable ring `removePNode` returns, and so does
`addPNode` when the modulus of the placement is not zero. -/
theorem membership_keeps_objects (r : HashRing) (hr : Reachable r) (id : Nat) :
    (∃ r2 e, removePNode r id = .ok (r2, e) ∧ r2.ringData = r.ringData ∧
      r2.keySlice = r.keySlice ∧
      ∀ k, ∃ res, get r k = .ok (r, res) ∧ get r2 k = .ok (r2, res)) ∧
    (toUint32 (cutRangeOf r.virtualFactor) ≠ 0 →
      ∃ r1, addPNode r id = .ok r1 ∧ r1.ringData = r.ringData ∧ r1.keySlice = r.keySlice ∧
        ∀ k, ∃ res, get r k = .ok (r, res) ∧ get r1 k = .ok (r1, res)) ∧
    (∀ (s s1 : HashRing) (n : Nat), addPNode s n = .ok s1 →
      s1.ringData = s.ringData ∧ s1.keySlice = s.keySlice ∧
        ∀ k, ∃ res, get s k = .ok (s, res) ∧ get s1 k = .ok (s1, res)) ∧
    (∀ (s s1 : HashRing) (n : Nat) (e : Option Err), removePNode s n = .ok (s1, e) →
      s1.ringData = s.ringData ∧ s1.keySlice = s.keySlice ∧
        ∀ k, ∃ res, get s k = .ok (s, res) ∧ get s1 k = .ok (s1, res)) := by
  have hi := reachable_inv r hr
  have hadd : ∀ (s s1 : HashRing) (n : Nat), addPNode s n = .ok s1 →
      s1.ringData = s.ringData ∧ s1.keySlice = s.keySlice ∧
        ∀ k, ∃ res, get s k = .ok (s, res) ∧ get s1 k = .ok (s1, res) := by
    intro s s1 n h
    obtain ⟨h1, h2, -, -, -, h3, h4⟩ := addPNode_frame s n s1 h
    exact ⟨h1, h2, get_congr s s1 h3 h4 h1 h2⟩
  have hrem : ∀ (s s1 : HashRing) (n : Nat) (e : Option Err),
      removePNode s n = .ok (s1, e) →
      s1.ringData = s.ringData ∧ s1.keySlice = s.keySlice ∧
        ∀ k, ∃ res, get s k = .ok (s, res) ∧ get s1 k = .ok (s1, res) := by
    intro s s1 n e h
    obtain ⟨h1, h2, -, -, h3, h4⟩ := removePNode_frame s n s1 e h
    exact ⟨h1, h2, get_congr s s1 h3 h4 h1 h2⟩
  refine ⟨?_, ?_, hadd, hrem⟩
  · rcases removePNode_reachable r hr id with ⟨-, vs1, h⟩ | ⟨-, e, h⟩
    · exact ⟨_, _, h, hrem _ _ _ _ h⟩
    · exact ⟨_, _, h, hrem _ _ _ _ h⟩
  · intro hm
    obtain ⟨vs1, h, -, -⟩ := addPNode_ok r id hi.free (by have := hi.factor; omega) hm hi.sorted
    exact ⟨_, h, hadd _ _ _ h⟩

/-- Witness of C16 on the ring that holds an object, for the node 5. -/
theorem membership_keeps_objects_witness :
    Reachable occupiedRing ∧ toUint32 (cutRangeOf occupiedRing.virtualFactor) ≠ 0 ∧
    (∃ r2 e, removePNode occupiedRing 5 = .ok (r2, e) ∧
      r2.ringData = occupiedRing.ringData ∧ r2.keySlice = occupiedRing.keySlice ∧
      ∀ k, ∃ res, get occupiedRing k = .ok (occupiedRing, res) ∧ get r2 k = .ok (r2, res)) ∧
    (∃ r1, addPNode occupiedRing 5 = .ok r1 ∧ r1.ringData = occupiedRing.ringData ∧
      r1.keySlice = occupiedRing.keySlice ∧
      ∀ k, ∃ res, get occupiedRing k = .ok (occupiedRing, res) ∧ get r1 k = .ok (r1, res)) :=
  ⟨occupiedRing_reachable, by decide,
    (membership_keeps_objects occupiedRing occupiedRing_reachable 5).1,
    (membership_keeps_objects occupiedRing occupiedRing_reachable 5).2.1 (by decide)⟩

/-- C17: when the factor is positive and the modulus of the placement is not zero,
`NewConsistentHashRing(nodes)` followed by `addPNode` for each id of `ids` returns, and
`PhysicalNodes()` is then `nodes ++ ids`, duplicates included; and on a reachable ring a
`removePNode(id)` for a present `id` returns no error and erases the first occurrence of
`id`, the other ids keeping their order. -/
theorem PhysicalNodes_insertion_order (fn : List Nat → Nat) (rep : Int) (nodes ids : List Nat)
    (hrep : 0 < rep) (hm : toUint32 (cutRangeOf rep) ≠ 0)
    (r : HashRing) (hr : Reachable r) (id : Nat) (hid : id ∈ r.physicalNodeSlice) :
    (∃ r0 r1, NewConsistentHashRing fn rep nodes = .ok r0 ∧ addPNodes r0 ids = .ok r1 ∧
      PhysicalNodes r1 = .ok (r1, nodes ++ ids)) ∧
    (∃ r2 before after, removePNode r id = .ok (r2, none) ∧
      r.physicalNodeSlice = before ++ id :: after ∧ id ∉ before ∧
      PhysicalNodes r2 = .ok (r2, before ++ after)) := by
  constructor
  · have hne : rep ≠ 0 := by omega
    have hnew : NewConsistentHashRing fn rep nodes = .ok
        { ringData := fun _ => none
          rwMu := RWMutex.free
          keySlice := []
          hashFun := fn
          virtualFactor := rep
          physicalNodeSlice := nodes
          virtualNodeSlice := List.insertionSort (fun a b => a ≤ b)
            (nodes.flatMap (positions rep)) } := by
      simp [NewConsistentHashRing, constructVirtualNodes_ok rep hne hm]
    have hi0 := construct_inv fn rep nodes _ hrep hnew
    obtain ⟨r1, h1, hi1, h2⟩ := addPNodes_ok ids _ hi0 hm
    refine ⟨_, r1, hnew, h1, ?_⟩
    rw [PhysicalNodes_free r1 hi1.free, h2]
  · rcases removePNode_reachable r hr id with ⟨-, vs1, h⟩ | ⟨hn, -⟩
    · obtain ⟨before, after, h1, h2, h3⟩ := List.exists_erase_eq hid
      refine ⟨_, before, after, h, h2, h1, ?_⟩
      rw [PhysicalNodes_free _ rfl]
      simp only [h3]
    · exact absurd hid hn

/-- Witness of C17: the ring and the additions of the test, and the removal of the node 9
from the example ring. -/
theorem PhysicalNodes_insertion_order_witness :
    ((0 : Int) < 4 ∧ toUint32 (cutRangeOf 4) ≠ 0 ∧ Reachable exampleRing ∧
      9 ∈ exampleRing.physicalNodeSlice) ∧
    (∃ r0 r1, NewConsistentHashRing (fun b => b.length) 4
        [10000000, 20000000, 30000000, 40000000] = .ok r0 ∧
      addPNodes r0 [100000000, 999999999, 1] = .ok r1 ∧
      PhysicalNodes r1 = .ok (r1, [10000000, 20000000, 30000000, 40000000] ++
        [100000000, 999999999, 1])) ∧
    (∃ r2 before after, removePNode exampleRing 9 = .ok (r2, none) ∧
      exampleRing.physicalNodeSlice = before ++ 9 :: after ∧ 9 ∉ before ∧
      PhysicalNodes r2 = .ok (r2, before ++ after)) :=
  ⟨⟨by decide, by decide, exampleRing_reachable, by decide⟩,
    PhysicalNodes_insertion_order (fun b => b.length) 4
      [10000000, 20000000, 30000000, 40000000] [100000000, 999999999, 1]
      (by decide) (by decide) exampleRing exampleRing_reachable 9 (by decide)⟩

/-- C18, evaluated: `delete` on the example ring is granted the write lock, then calls
`get` on the ring it has locked; `get` requests the read lock of the same mutex and
blocks, and so `delete` does not return, for any key. -/
theorem delete_reacquires_held_lock (key : Nat) :
    exampleRing.rwMu.Lock = .ok { writer := true, readers := 0 } ∧
    get { exampleRing with rwMu := { writer := true, readers := 0 } } key = .error .blocked ∧
    delete exampleRing key = .error .blocked :=
  ⟨rfl, rfl, delete_blocked _ _⟩

/-- The ring with the key 1 twice in its key list is what `add` makes of the ring that
already holds the key 1, hence reachable. -/
theorem duplicateKeyRing_reachable : Reachable duplicateKeyRing := by
  refine Reachable.add occupiedRing [9] duplicateKeyRing 1 occupiedRing_reachable ?_
  rw [add_free occupiedRing [9] rfl]
  have hd : (fun k => if k = occupiedRing.hashFun [9] then some [9]
      else occupiedRing.ringData k) = fun k => if k = 1 then some [9] else none := by
    funext k
    by_cases hk : k = 1 <;> simp [occupiedRing, hk]
  rw [hd]
  rfl

/-- C19: in every reachable ring, whatever calls of `add` and `delete` (and of the other
methods) led to it, the key list is ascending and a position occurs in it exactly when it
is a key of the object map; and a call of `delete(key)` that returns without error leaves
the key in neither the key list nor the map. -/
theorem keySlice_holds_occupied_positions (r : HashRing) (hr : Reachable r) :
    r.keySlice.Sorted (fun a b => a ≤ b) ∧
    (∀ k, k ∈ r.keySlice ↔ r.ringData k ≠ none) ∧
    (∀ (key : Nat) (r1 : HashRing), delete r key = .ok (r1, none) →
      key ∉ r1.keySlice ∧ r1.ringData key = none) := by
  obtain ⟨h1, h2⟩ := reachable_keys r hr
  refine ⟨h1, h2, ?_⟩
  intro key r1 h
  rw [delete_blocked] at h
  exact absurd h (by simp)

/-- Witness of C19 on the ring to which two payloads with the key 1 were added: the key
occurs twice in the key list and once in the map. -/
theorem keySlice_holds_occupied_positions_witness :
    (Reachable duplicateKeyRing ∧ duplicateKeyRing.keySlice = [1, 1] ∧
      duplicateKeyRing.ringData 1 = some [9]) ∧
    (duplicateKeyRing.keySlice.Sorted (fun a b => a ≤ b) ∧
      (∀ k, k ∈ duplicateKeyRing.keySlice ↔ duplicateKeyRing.ringData k ≠ none) ∧
      (∀ (key : Nat) (r1 : HashRing), delete duplicateKeyRing key = .ok (r1, none) →
        key ∉ r1.keySlice ∧ r1.ringData key = none)) :=
  ⟨⟨duplicateKeyRing_reachable, rfl, rfl⟩,
    keySlice_holds_occupied_positions duplicateKeyRing duplicateKeyRing_reachable⟩

/-- C20: for every factor `R` with `2 ≤ R ≤ 2^31` and every node id, the position the
code computes for an index `i < R` is `id mod (2^32 / R) + i * 2^32 / R` without any wrap:
the sum is below `2^32` and lies in the band from `i * 2^32 / R` up to, not including,
`(i + 1) * 2^32 / R`; so the positions of a node increase strictly with the index. -/
theorem position_in_band (R id : Nat) (h2 : 2 ≤ R) (hR : R ≤ 2147483648) :
    (∀ i, i < R →
      virtualNode id (cutRangeOf (R : Int)) (R : Int) i = .ok (position (R : Int) id i) ∧
      position (R : Int) id i = id % (4294967296 / R) + i * 4294967296 / R ∧
      id % (4294967296 / R) + i * 4294967296 / R < 4294967296 ∧
      i * 4294967296 / R ≤ position (R : Int) id i ∧
      position (R : Int) id i < (i + 1) * 4294967296 / R) ∧
    (∀ i j, i < j → j < R → position (R : Int) id i < position (R : Int) id j) := by
  have hvf : (R : Int) ≠ 0 := by omega
  have hm := modulus_eq R h2 hR
  have hband : ∀ i, i < R → i * 4294967296 / R ≤ position (R : Int) id i ∧
      position (R : Int) id i < (i + 1) * 4294967296 / R ∧
      (i + 1) * 4294967296 / R ≤ 4294967296 := by
    intro i hi
    have hb := band_step R i (by omega) hi
    have hmod : id % (4294967296 / R) < 4294967296 / R := Nat.mod_lt _ hm.2
    rw [position_eq R id i h2 hR hi]
    omega
  constructor
  · intro i hi
    have hb := hband i hi
    refine ⟨virtualNode_eq id (R : Int) i hvf (by omega), position_eq R id i h2 hR hi, ?_,
      hb.1, hb.2.1⟩
    rw [← position_eq R id i h2 hR hi]
    omega
  · intro i j hij hj
    have hbi := hband i (by omega)
    have hbj := hband j hj
    have hstep : (i + 1) * 4294967296 / R ≤ j * 4294967296 / R :=
      Nat.div_le_div_right (Nat.mul_le_mul_right _ hij)
    omega

/-- Witness of C20 for the factor 6, which does not divide `2^32`, and the node 7. -/
theorem position_in_band_witness :
    (2 ≤ 6 ∧ 6 ≤ 2147483648) ∧
    (∀ i, i < 6 →
      virtualNode 7 (cutRangeOf ((6 : Nat) : Int)) ((6 : Nat) : Int) i =
        .ok (position ((6 : Nat) : Int) 7 i) ∧
      position ((6 : Nat) : Int) 7 i = 7 % (4294967296 / 6) + i * 4294967296 / 6 ∧
      7 % (4294967296 / 6) + i * 4294967296 / 6 < 4294967296 ∧
      i * 4294967296 / 6 ≤ position ((6 : Nat) : Int) 7 i ∧
      position ((6 : Nat) : Int) 7 i < (i + 1) * 4294967296 / 6) ∧
    (∀ i j, i < j → j < 6 →
      position ((6 : Nat) : Int) 7 i < position ((6 : Nat) : Int) 7 j) :=
  ⟨⟨by decide, by decide⟩, position_in_band 6 7 (by decide) (by decide)⟩

end ConsistentHashRing
